import Mathlib

/-!
Verification development for the `code-graph-enricher` repository.

The embedding follows `src/enricher/iterative_enricher.py` (the pass base
class `EnricherPass`, the orchestrator `IterativeEnricher`), `src/enricher/cli.py`
(graph loading) and `src/enricher/layer1_structural.py` (the structural pass),
translated shallowly into Lean:

* Python dicts holding JSON data are modelled by the inductive type `Json`;
  dict insertion (`d[k] = v`: overwrite in place if the key exists, append
  otherwise) is `dictInsert`.
* `json.dumps(..., sort_keys=True)` is `Json.dumps` (keys sorted, the default
  `", "` / `": "` separators of `json.dumps`).
* `hashlib.md5(content.encode()).hexdigest()` in `_compute_hash` is modelled by
  the identity on the pre-image `content` string: the digest is a deterministic
  function of `content` used by the program only for equality tests, so
  equalities between fingerprints are faithfully represented by equalities
  between the serialized contents (the program itself relies on the absence of
  md5 collisions in exactly the same way).
* File writes are modelled by the ordered list of written paths (a second write
  to the same path overwrites the same file, so the path list is deduplicated),
  and the run keeps a log of every executed pass.
-/

namespace Enricher

/-- JSON values as produced by `json.loads` / consumed by `json.dumps`.
Objects keep their (Python dict insertion) key order. -/
inductive Json where
  | null : Json
  | bool (b : Bool) : Json
  | num (n : Int) : Json
  | str (s : String) : Json
  | arr (xs : List Json) : Json
  | obj (kvs : List (String × Json)) : Json

/-- Decimal digits of a natural number, most significant first
(`fuel`-driven so that every use reduces in the kernel). -/
def natDigitsAux : Nat → Nat → List Char
  | 0, _ => []
  | fuel+1, n =>
    if n < 10 then [Char.ofNat (48 + n)]
    else natDigitsAux fuel (n / 10) ++ [Char.ofNat (48 + n % 10)]

/-- Decimal rendering of a natural number (what Python's `str`/f-strings and
`json.dumps` print for a non-negative int). -/
def natStr (n : Nat) : String := ⟨natDigitsAux (n + 1) n⟩

/-- Decimal rendering of a Python int. -/
def intStr (n : Int) : String :=
  if n < 0 then "-" ++ natStr n.natAbs else natStr n.natAbs

/-- String escaping of `json.dumps` (quotes and backslashes; the claims only
exercise strings without control characters). -/
def jsonEscape (s : String) : String :=
  "\"" ++ String.join (s.data.map (fun c =>
    if c = '"' then "\\\"" else if c = '\\' then "\\\\" else String.singleton c)) ++ "\""

/-- Lexicographic comparison of character lists by code point — this is how
Python compares strings (`sorted`, `sort_keys=True`). -/
def listLexLeb : List Char → List Char → Bool
  | [], _ => true
  | _ :: _, [] => false
  | a :: as, b :: bs =>
    if a.toNat < b.toNat then true
    else if b.toNat < a.toNat then false
    else listLexLeb as bs

/-- Python's `<=` on strings (code-point lexicographic order). -/
def strLeb (a b : String) : Bool := listLexLeb a.data b.data

/-- Python's `sorted` on a list of strings. -/
def sortStrings (l : List String) : List String :=
  l.insertionSort (fun a b => strLeb a b = true)

/-- Sort rendered object entries by key, as `sort_keys=True` does. -/
def sortPairsByKey (l : List (String × String)) : List (String × String) :=
  l.insertionSort (fun a b => strLeb a.1 b.1 = true)

def renderPair (kv : String × String) : String := jsonEscape kv.1 ++ ": " ++ kv.2

mutual

/-- Model of `json.dumps(j, sort_keys=True)`. -/
def Json.dumps : Json → String
  | .null => "null"
  | .bool b => cond b "true" "false"
  | .num n => intStr n
  | .str s => jsonEscape s
  | .arr xs => "[" ++ String.intercalate ", " (dumpsList xs) ++ "]"
  | .obj kvs =>
    "\x7b" ++ String.intercalate ", " ((sortPairsByKey (dumpsPairs kvs)).map renderPair) ++ "\x7d"
termination_by structural j => j

def dumpsList : List Json → List String
  | [] => []
  | x :: xs => Json.dumps x :: dumpsList xs
termination_by structural l => l

def dumpsPairs : List (String × Json) → List (String × String)
  | [] => []
  | kv :: kvs => (kv.1, Json.dumps kv.2) :: dumpsPairs kvs
termination_by structural l => l

end

/-! ### Python dict / truthiness helpers -/

/-- Lookup `d[k]` on a Python dict represented as an insertion-ordered
association list (the first — in a dict, only — entry with that key). -/
def lookupKV : List (String × Json) → String → Option Json
  | [], _ => none
  | kv :: m, k => if kv.1 == k then some kv.2 else lookupKV m k

/-- Keys of a dict, in insertion order. -/
def keysOf (m : List (String × Json)) : List String := m.map Prod.fst

/-- Assignment `d[k] = v` on a Python dict: overwrite in place if `k` is present,
append at the end otherwise. -/
def dictInsert (m : List (String × Json)) (k : String) (v : Json) : List (String × Json) :=
  if m.any (fun kv => kv.1 == k) then
    m.map (fun kv => if kv.1 == k then (k, v) else kv)
  else
    m ++ [(k, v)]

/-- Python truthiness of a JSON value (`if enrichment:` in
`EnricherPass.process`): `None`, `False`, `0`, `""`, `[]` and `{}` are falsy. -/
def jtruthy : Json → Bool
  | .null => false
  | .bool b => b
  | .num n => n != 0
  | .str s => s != ""
  | .arr xs => !xs.isEmpty
  | .obj kvs => !kvs.isEmpty

/-- Truthiness of an optional return value (a Python function returning
nothing returns `None`, which is falsy). -/
def otruthy : Option Json → Bool
  | none => false
  | some j => jtruthy j

/-! ### The graph document (`nodes` / `edges` of the code graph JSON) -/

/-- A node of the code graph (the fields the enrichment engine reads).
`enrichment` is `none` when the `'enrichment'` key is absent from the dict. -/
structure Node where
  id : String
  name : String
  type : String
  path : String
  location : Json
  metadata : Json
  enrichment : Option (List (String × Json))

/-- An edge of the code graph. -/
structure Edge where
  source : String
  target : String
  type : String
  enrichment : Option (List (String × Json))

/-- The graph document (`{"nodes": [...], "edges": [...]}`). -/
structure Graph where
  nodes : List Node
  edges : List Edge

/-- Enrichment lookup through the optional `'enrichment'` key. -/
def lookupEnrich (e : Option (List (String × Json))) (k : String) : Option Json :=
  lookupKV (e.getD []) k

/-! ### JSON round trip (`json.loads(json.dumps(graph))` deep copies) -/

def Node.toJson (n : Node) : Json :=
  .obj ([("id", .str n.id), ("name", .str n.name), ("type", .str n.type),
         ("path", .str n.path), ("location", n.location), ("metadata", n.metadata)] ++
    (match n.enrichment with
     | some e => [("enrichment", Json.obj e)]
     | none => []))

def Edge.toJson (e : Edge) : Json :=
  .obj ([("source", .str e.source), ("target", .str e.target), ("type", .str e.type)] ++
    (match e.enrichment with
     | some m => [("enrichment", Json.obj m)]
     | none => []))

def Graph.toJson (g : Graph) : Json :=
  .obj [("nodes", .arr (g.nodes.map Node.toJson)), ("edges", .arr (g.edges.map Edge.toJson))]

def asString : Json → Option String
  | .str s => some s
  | _ => none

def nodeFromJson : Json → Option Node
  | .obj kvs => do
    let id ← (lookupKV kvs "id").bind asString
    let name ← (lookupKV kvs "name").bind asString
    let ty ← (lookupKV kvs "type").bind asString
    let path ← (lookupKV kvs "path").bind asString
    let location ← lookupKV kvs "location"
    let metadata ← lookupKV kvs "metadata"
    let enrichment ←
      match lookupKV kvs "enrichment" with
      | some (.obj e) => some (some e)
      | some _ => none
      | none => some none
    some ⟨id, name, ty, path, location, metadata, enrichment⟩
  | _ => none

def edgeFromJson : Json → Option Edge
  | .obj kvs => do
    let source ← (lookupKV kvs "source").bind asString
    let target ← (lookupKV kvs "target").bind asString
    let ty ← (lookupKV kvs "type").bind asString
    let enrichment ←
      match lookupKV kvs "enrichment" with
      | some (.obj e) => some (some e)
      | some _ => none
      | none => some none
    some ⟨source, target, ty, enrichment⟩
  | _ => none

def nodesFromJson : List Json → Option (List Node)
  | [] => some []
  | j :: js => do
    let n ← nodeFromJson j
    let ns ← nodesFromJson js
    some (n :: ns)

def edgesFromJson : List Json → Option (List Edge)
  | [] => some []
  | j :: js => do
    let e ← edgeFromJson j
    let es ← edgesFromJson js
    some (e :: es)

def graphFromJson : Json → Option Graph
  | .obj kvs => do
    let nodesJ ← lookupKV kvs "nodes"
    let edgesJ ← lookupKV kvs "edges"
    match nodesJ, edgesJ with
    | .arr ns, .arr es => do
      let nodes ← nodesFromJson ns
      let edges ← edgesFromJson es
      some ⟨nodes, edges⟩
    | _, _ => none
  | _ => none

/-- Model of `json.loads(json.dumps(graph))`: serialize and re-parse, producing a fresh,
structurally equal document (`deepCopy_eq` below proves the round trip is the
identity on the represented value). -/
def deepCopy (g : Graph) : Graph := (graphFromJson g.toJson).getD g

/-! ### `EnricherPass` (iterative_enricher.py, class EnricherPass) -/

/-- An enrichment pass: `layer_num`, `name` and the two abstract methods.
`enrich_node`/`enrich_edge` receive the entity, the full (partially enriched)
graph and the `context` list of prior full-iteration snapshots, and return the
metadata to attach (`none` models Python `None`). -/
structure EnricherPass where
  layer_num : Nat
  name : String
  enrich_node : Node → Graph → List Graph → Option Json
  enrich_edge : Edge → Graph → List Graph → Option Json

/-- The dict key `f'layer{self.layer_num}'` of a pass. -/
def layerKey (p : EnricherPass) : String := "layer" ++ natStr p.layer_num

/-- Attach an enrichment result to a node's `enrichment` dict, exactly as the
node loop body of `EnricherPass.process` does: only truthy results are
attached; the `'enrichment'` key is created on demand. -/
def attachNodeResult (p : EnricherPass) (nd : Node) (r : Option Json) : Node :=
  match r with
  | some v =>
    if jtruthy v then
      { nd with enrichment := some (dictInsert (nd.enrichment.getD []) (layerKey p) v) }
    else nd
  | none => nd

/-- Ditto for edges. -/
def attachEdgeResult (p : EnricherPass) (ed : Edge) (r : Option Json) : Edge :=
  match r with
  | some v =>
    if jtruthy v then
      { ed with enrichment := some (dictInsert (ed.enrichment.getD []) (layerKey p) v) }
    else ed
  | none => ed

/-- One step of the node loop of `process`: enrich the node at index `i` of the
current (partially updated) graph in place.  The pass sees the same mutable
graph object it is updating, so nodes before `i` already carry this pass's
layer when node `i` is enriched — the embedding threads the updated graph. -/
def stepNode (p : EnricherPass) (ctx : List Graph) (g : Graph) (i : Nat) : Graph :=
  match g.nodes[i]? with
  | none => g
  | some nd => { g with nodes := g.nodes.set i (attachNodeResult p nd (p.enrich_node nd g ctx)) }

def stepEdge (p : EnricherPass) (ctx : List Graph) (g : Graph) (i : Nat) : Graph :=
  match g.edges[i]? with
  | none => g
  | some ed => { g with edges := g.edges.set i (attachEdgeResult p ed (p.enrich_edge ed g ctx)) }

/-- The node loop (`for i, node in enumerate(enriched_graph['nodes'])`),
indices `i, i+1, ...` for `fuel` steps. -/
def processNodesAux (p : EnricherPass) (ctx : List Graph) : Nat → Nat → Graph → Graph
  | 0, _, g => g
  | fuel+1, i, g => processNodesAux p ctx fuel (i+1) (stepNode p ctx g i)

def processEdgesAux (p : EnricherPass) (ctx : List Graph) : Nat → Nat → Graph → Graph
  | 0, _, g => g
  | fuel+1, i, g => processEdgesAux p ctx fuel (i+1) (stepEdge p ctx g i)

/-- The body of `EnricherPass.process` after the deep copy: enrich every node,
then every edge. -/
def processBody (p : EnricherPass) (ctx : List Graph) (g : Graph) : Graph :=
  let g1 := processNodesAux p ctx g.nodes.length 0 g
  processEdgesAux p ctx g1.edges.length 0 g1

/-- Model of `EnricherPass.process(graph, context)`: deep copy, enrich all nodes and
edges of the copy, return the copy. -/
def EnricherPass.process (p : EnricherPass) (g : Graph) (ctx : List Graph) : Graph :=
  processBody p ctx (deepCopy g)

/-! ### `IterativeEnricher` (iterative_enricher.py) -/

/-- Model of `_compute_hash`: serialize each node's `enrichment` dict with
`json.dumps(..., sort_keys=True)` (only nodes that have the `'enrichment'`
key), sort the strings, concatenate.  The final
`hashlib.md5(content.encode()).hexdigest()` is modelled as the identity on
`content` (see the header comment). -/
def compute_hash (g : Graph) : String :=
  String.join (sortStrings (g.nodes.filterMap
    (fun n => n.enrichment.map (fun e => Json.dumps (Json.obj e)))))

/-- Path `self.enrichment_dir / f"l{layer}-{enricher_name}.json"` of `_save_layer`. -/
def layerPath (outDir : String) (p : EnricherPass) : String :=
  outDir ++ "/enrichment/l" ++ natStr p.layer_num ++ "-" ++ p.name ++ ".json"

def indexPath (outDir : String) : String := outDir ++ "/enrichment/indexes/entity-index.json"

def finalGraphPath (outDir : String) : String := outDir ++ "/code-graph-enriched.json"

/-- Record a file write: writing a path already written overwrites the same
file, so the list of existing files is the deduplicated list of written
paths. -/
def writePath (st : List String) (path : String) : List String :=
  if st.contains path then st else st ++ [path]

/-- The inner `for enricher in self.enrichers:` loop of one iteration:
fold the pipeline over the graph, accumulating the `iteration_changed` flag
(`new_graph_hash != prev_graph_hash` per pass). -/
def pipelineStep (ctx : List Graph) : List EnricherPass → Graph → Bool → Graph × Bool
  | [], g, changed => (g, changed)
  | p :: ps, g, changed =>
    let g2 := p.process g ctx
    pipelineStep ctx ps g2 (changed || (compute_hash g2 != compute_hash g))

/-- Terminal states of the iteration controller. -/
inductive StopReason where
  | converged : StopReason
  | stalled : StopReason
  | exhausted : StopReason
deriving DecidableEq

/-- Result of a run of `IterativeEnricher.enrich`: the final graph, the
`self.layers` history, how many loop iterations ran, why the loop stopped,
the deduplicated list of file paths written, and the log of executed passes. -/
structure RunResult where
  graph : Graph
  layers : List Graph
  iterations : Nat
  stop : StopReason
  writes : List String
  executed : List String

/-- The `for iteration in range(max_iterations):` loop of `enrich`.
`remaining` is the number of iterations still allowed, `done` the number
already executed; `prev` is `prev_hash` (`None` before the first iteration).
Each iteration: run every pass in order (saving one layer artifact per pass),
append the post-pipeline snapshot to the history, then in this order
(a) break as Converged if `convergence_check and current_hash == prev_hash`,
(b) break as Stalled if no pass changed the fingerprint,
(c) otherwise set `prev_hash = current_hash` and continue. -/
def enrichLoop (passes : List EnricherPass) (outDir : String) (conv : Bool) :
    Nat → Nat → Graph → List Graph → Option String → List String → List String → RunResult
  | 0, done, g, layers, _, st, ex => ⟨g, layers, done, .exhausted, st, ex⟩
  | remaining+1, done, g, layers, prev, st, ex =>
    let gc := pipelineStep layers passes g false
    let st2 := (passes.map (layerPath outDir)).foldl writePath st
    let ex2 := ex ++ passes.map EnricherPass.name
    let layers2 := layers ++ [deepCopy gc.1]
    let cur := compute_hash gc.1
    if conv = true ∧ prev = some cur then ⟨gc.1, layers2, done + 1, .converged, st2, ex2⟩
    else if gc.2 = false then ⟨gc.1, layers2, done + 1, .stalled, st2, ex2⟩
    else enrichLoop passes outDir conv remaining (done + 1) gc.1 layers2 (some cur) st2 ex2

/-- Model of `_save_indexes`: the entity index maps the id of every `class`/`function`
node to `{name, type, path, location}` plus, scanning the node's enrichment
layers in insertion order, the `classification` and `patterns` summary fields
when a layer (a dict) carries them. -/
def indexEntry (n : Node) : Json :=
  let base := [("name", Json.str n.name), ("type", Json.str n.type),
               ("path", Json.str n.path), ("location", n.location)]
  match n.enrichment with
  | none => .obj base
  | some e => .obj (e.foldl (fun acc kv =>
      let acc := match kv.2 with
        | .obj d => match lookupKV d "classification" with
          | some c => dictInsert acc "classification" c
          | none => acc
        | _ => acc
      match kv.2 with
      | .obj d => match lookupKV d "patterns" with
        | some ps => dictInsert acc "patterns" ps
        | none => acc
      | _ => acc) base)

def entityIndex (g : Graph) : List (String × Json) :=
  g.nodes.foldl (fun acc n =>
    if n.type == "class" || n.type == "function" then dictInsert acc n.id (indexEntry n)
    else acc) []

/-- Model of `IterativeEnricher.enrich(max_iterations, convergence_check)`: deep copy
the base graph, run the iteration loop starting with `prev_hash = None` and an
empty history, then generate the entity index and save the final graph. -/
def enrich (base : Graph) (passes : List EnricherPass) (outDir : String)
    (maxIter : Nat) (conv : Bool) : RunResult :=
  let r := enrichLoop passes outDir conv maxIter 0 (deepCopy base) [] none [] []
  { r with writes := writePath (writePath r.writes (indexPath outDir)) (finalGraphPath outDir) }

/-! ### Order theory for `strLeb` (needed for permutation invariance) -/

theorem charToNat_inj {a b : Char} (h : a.toNat = b.toNat) : a = b := by
  rw [← Char.ofNat_toNat a, h, Char.ofNat_toNat]

theorem listLexLeb_total : ∀ as bs : List Char, listLexLeb as bs = true ∨ listLexLeb bs as = true
  | [], _ => Or.inl rfl
  | _ :: _, [] => Or.inr rfl
  | a :: as, b :: bs => by
    by_cases h1 : a.toNat < b.toNat
    · left; simp [listLexLeb, h1]
    · by_cases h2 : b.toNat < a.toNat
      · right; simp [listLexLeb, h2]
      · rcases listLexLeb_total as bs with h | h
        · left; simp [listLexLeb, h1, h2, h]
        · right; simp [listLexLeb, h1, h2, h]

theorem listLexLeb_trans : ∀ as bs cs : List Char,
    listLexLeb as bs = true → listLexLeb bs cs = true → listLexLeb as cs = true
  | [], _, _, _, _ => rfl
  | _ :: _, [], _, h, _ => by simp [listLexLeb] at h
  | _ :: _, _ :: _, [], _, h => by simp [listLexLeb] at h
  | a :: as, b :: bs, c :: cs, h1, h2 => by
    simp only [listLexLeb] at h1 h2 ⊢
    by_cases hab : a.toNat < b.toNat <;> by_cases hbc : b.toNat < c.toNat <;>
      by_cases hba : b.toNat < a.toNat <;> by_cases hcb : c.toNat < b.toNat <;>
      simp_all <;>
      (try omega) <;>
      (first
        | (have hac : a.toNat < c.toNat := by omega; simp [hac])
        | (have hac : ¬ a.toNat < c.toNat := by omega
           have hca : ¬ c.toNat < a.toNat := by omega
           simp only [hac, hca, if_false, if_neg, ite_false]
           simp_all
           exact listLexLeb_trans as bs cs h1 h2))

theorem listLexLeb_antisymm : ∀ as bs : List Char,
    listLexLeb as bs = true → listLexLeb bs as = true → as = bs
  | [], [], _, _ => rfl
  | [], _ :: _, _, h => by simp [listLexLeb] at h
  | _ :: _, [], h, _ => by simp [listLexLeb] at h
  | a :: as, b :: bs, h1, h2 => by
    simp only [listLexLeb] at h1 h2
    by_cases hab : a.toNat < b.toNat <;> by_cases hba : b.toNat < a.toNat <;> simp_all
    · omega
    · have : a = b := charToNat_inj (by omega)
      exact ⟨this, listLexLeb_antisymm as bs h1 h2⟩

theorem strLeb_total (a b : String) : strLeb a b = true ∨ strLeb b a = true :=
  listLexLeb_total a.data b.data

theorem strLeb_trans {a b c : String} (h1 : strLeb a b = true) (h2 : strLeb b c = true) :
    strLeb a c = true :=
  listLexLeb_trans a.data b.data c.data h1 h2

theorem strLeb_antisymm {a b : String} (h1 : strLeb a b = true) (h2 : strLeb b a = true) :
    a = b := by
  have h := listLexLeb_antisymm a.data b.data h1 h2
  cases a; cases b; exact congrArg String.mk h

instance : IsTotal String (fun a b => strLeb a b = true) := ⟨strLeb_total⟩

instance : IsTrans String (fun a b => strLeb a b = true) := ⟨fun _ _ _ => strLeb_trans⟩

instance : IsAntisymm String (fun a b => strLeb a b = true) := ⟨fun _ _ => strLeb_antisymm⟩

/-- Python's `sorted` returns the same list for any two permutations of the
same input (the sorted order is uniquely determined by the multiset). -/
theorem sortStrings_perm {l1 l2 : List String} (h : l1.Perm l2) :
    sortStrings l1 = sortStrings l2 :=
  List.eq_of_perm_of_sorted
    (((List.perm_insertionSort _ l1).trans h).trans (List.perm_insertionSort _ l2).symm)
    (List.sorted_insertionSort _ l1) (List.sorted_insertionSort _ l2)

/-! ### Injectivity of the decimal rendering (distinct layer numbers give
distinct `layerN` keys) -/

def unDigits (l : List Char) : Nat := l.foldl (fun a c => 10 * a + (c.toNat - 48)) 0

theorem unDigits_concat (l : List Char) (c : Char) :
    unDigits (l ++ [c]) = 10 * unDigits l + (c.toNat - 48) := by
  simp [unDigits, List.foldl_append]

theorem digitChar_toNat {d : Nat} (h : d < 10) : (Char.ofNat (48 + d)).toNat = 48 + d := by
  interval_cases d <;> decide

theorem unDigits_natDigitsAux : ∀ fuel n, n < fuel → unDigits (natDigitsAux fuel n) = n := by
  intro fuel
  induction fuel with
  | zero => intro n h; omega
  | succ f ih =>
    intro n h
    by_cases h10 : n < 10
    · simp only [natDigitsAux, if_pos h10]
      have : (Char.ofNat (48 + n)).toNat = 48 + n := digitChar_toNat h10
      simp [unDigits, this]
    · simp only [natDigitsAux, if_neg h10]
      have hq : n / 10 < f := by
        have := Nat.div_lt_self (by omega : 0 < n) (by omega : 1 < 10)
        omega
      rw [unDigits_concat, ih (n / 10) hq, digitChar_toNat (Nat.mod_lt n (by omega))]
      omega

theorem natStr_inj {m n : Nat} (h : natStr m = natStr n) : m = n := by
  have hd : natDigitsAux (m + 1) m = natDigitsAux (n + 1) n := congrArg String.data h
  have h1 := unDigits_natDigitsAux (m + 1) m (by omega)
  have h2 := unDigits_natDigitsAux (n + 1) n (by omega)
  rw [← h1, ← h2, hd]

theorem layerKey_inj {p q : EnricherPass} (h : layerKey p = layerKey q) :
    p.layer_num = q.layer_num := by
  have hd := congrArg String.data h
  simp only [layerKey] at hd
  rw [String.data_append, String.data_append] at hd
  have := List.append_cancel_left hd
  exact natStr_inj (congrArg String.mk this)

/-! ### Round trip: `json.loads(json.dumps(g))` represents the same graph -/

theorem nodeFromJson_toJson (n : Node) : nodeFromJson n.toJson = some n := by
  cases n with
  | mk id name ty path location metadata enrichment => cases enrichment <;> rfl

theorem edgeFromJson_toJson (e : Edge) : edgeFromJson e.toJson = some e := by
  cases e with
  | mk source target ty enrichment => cases enrichment <;> rfl

theorem nodesFromJson_map (ns : List Node) : nodesFromJson (ns.map Node.toJson) = some ns := by
  induction ns with
  | nil => rfl
  | cons n ns ih => simp [nodesFromJson, nodeFromJson_toJson, ih]

theorem edgesFromJson_map (es : List Edge) : edgesFromJson (es.map Edge.toJson) = some es := by
  induction es with
  | nil => rfl
  | cons e es ih => simp [edgesFromJson, edgeFromJson_toJson, ih]

theorem graphFromJson_toJson (g : Graph) : graphFromJson g.toJson = some g := by
  cases g with
  | mk nodes edges =>
    simp [graphFromJson, Graph.toJson, lookupKV, List.find?, nodesFromJson_map, edgesFromJson_map]

/-- The deep copy taken by `EnricherPass.process` and by `enrich` is the same
graph value. -/
theorem deepCopy_eq (g : Graph) : deepCopy g = g := by
  simp [deepCopy, graphFromJson_toJson]

/-! ### Dict theory: `dictInsert` sequences are idempotent

Repeating the same sequence of `d[k] = v` assignments on a dict that already
absorbed it is a no-op.  This is the heart of convergence for passes whose
output depends only on entity identity. -/

theorem mem_keysOf_iff_any (m : List (String × Json)) (k : String) :
    m.any (fun kv => kv.1 == k) = true ↔ k ∈ keysOf m := by
  induction m with
  | nil => simp [keysOf]
  | cons kv m ih =>
    simp only [List.any_cons, keysOf, List.map_cons, List.mem_cons, Bool.or_eq_true, beq_iff_eq, ih]
    constructor
    · rintro (h | h)
      · exact Or.inl h.symm
      · exact Or.inr h
    · rintro (h | h)
      · exact Or.inl h.symm
      · exact Or.inr h

theorem keysOf_dictInsert_of_mem {m : List (String × Json)} {k : String} (v : Json)
    (h : k ∈ keysOf m) : keysOf (dictInsert m k v) = keysOf m := by
  rw [dictInsert, if_pos ((mem_keysOf_iff_any m k).mpr h)]
  simp only [keysOf, List.map_map]
  apply List.map_congr_left
  intro kv _
  by_cases hk : kv.1 = k
  · simp [hk]
  · simp [hk, Function.comp]

theorem keysOf_dictInsert_of_not_mem {m : List (String × Json)} {k : String} (v : Json)
    (h : k ∉ keysOf m) : keysOf (dictInsert m k v) = keysOf m ++ [k] := by
  rw [dictInsert, if_neg]
  · simp [keysOf]
  · intro hc
    exact h ((mem_keysOf_iff_any m k).mp hc)

theorem mem_keysOf_dictInsert (m : List (String × Json)) (k k' : String) (v : Json) :
    k' ∈ keysOf (dictInsert m k v) ↔ k' ∈ keysOf m ∨ k' = k := by
  by_cases h : k ∈ keysOf m
  · rw [keysOf_dictInsert_of_mem v h]
    constructor
    · exact Or.inl
    · rintro (hh | rfl)
      · exact hh
      · exact h
  · rw [keysOf_dictInsert_of_not_mem v h]
    simp

theorem nodup_keysOf_dictInsert {m : List (String × Json)} (k : String) (v : Json)
    (h : (keysOf m).Nodup) : (keysOf (dictInsert m k v)).Nodup := by
  by_cases hk : k ∈ keysOf m
  · rw [keysOf_dictInsert_of_mem v hk]; exact h
  · rw [keysOf_dictInsert_of_not_mem v hk]
    refine List.Nodup.append h (by simp) ?_
    intro a ha hb
    simp only [List.mem_singleton] at hb
    exact hk (hb ▸ ha)

/-- The in-place overwrite branch of `dictInsert` (`m.map ...`), under lookup. -/
theorem lookupKV_replaceMap (m : List (String × Json)) (k k' : String) (v : Json) :
    lookupKV (m.map (fun kv => if kv.1 == k then (k, v) else kv)) k' =
      if k = k' then (lookupKV m k).map (fun _ => v) else lookupKV m k' := by
  induction m with
  | nil => by_cases h : k = k' <;> simp [lookupKV, h]
  | cons kv m ih =>
    simp only [beq_iff_eq] at ih
    simp only [List.map_cons]
    by_cases hk : kv.1 = k
    · by_cases hkk : k = k'
      · subst hkk
        simp [lookupKV, hk, ih]
      · simp [lookupKV, hk, hkk, ih, Ne.symm hkk]
    · by_cases hkk : k = k'
      · subst hkk
        simp [lookupKV, hk, ih]
      · by_cases hc : kv.1 = k'
        · simp [lookupKV, hk, hc, hkk, Ne.symm hkk]
        · simp [lookupKV, hk, hc, hkk, Ne.symm hkk, ih]

theorem lookupKV_append (m1 m2 : List (String × Json)) (k : String) :
    lookupKV (m1 ++ m2) k =
      match lookupKV m1 k with
      | some v => some v
      | none => lookupKV m2 k := by
  induction m1 with
  | nil => simp [lookupKV]
  | cons kv m1 ih =>
    cases hc : (kv.1 == k) with
    | true => simp [lookupKV, hc]
    | false => simp [lookupKV, hc, ih]

theorem lookupKV_eq_none_iff (m : List (String × Json)) (k : String) :
    lookupKV m k = none ↔ k ∉ keysOf m := by
  induction m with
  | nil => simp [lookupKV, keysOf]
  | cons kv m ih =>
    cases hc : (kv.1 == k) with
    | true =>
      simp only [beq_iff_eq] at hc
      simp [lookupKV, hc, keysOf]
    | false =>
      rw [beq_eq_false_iff_ne] at hc
      simp [lookupKV, hc, ih, keysOf, Ne.symm hc]

theorem lookupKV_dictInsert_self (m : List (String × Json)) (k : String) (v : Json) :
    lookupKV (dictInsert m k v) k = some v := by
  rw [dictInsert]
  split
  · rename_i h
    rw [lookupKV_replaceMap, if_pos rfl]
    rw [mem_keysOf_iff_any] at h
    cases hl : lookupKV m k with
    | none => exact absurd ((lookupKV_eq_none_iff m k).mp hl) (by simpa using h)
    | some w => rfl
  · rw [lookupKV_append]
    rename_i h
    have hnm : k ∉ keysOf m := fun hc => h ((mem_keysOf_iff_any m k).mpr hc)
    rw [(lookupKV_eq_none_iff m k).mpr hnm]
    simp [lookupKV]

theorem lookupKV_dictInsert_ne (m : List (String × Json)) {k k' : String} (v : Json)
    (h : k' ≠ k) : lookupKV (dictInsert m k v) k' = lookupKV m k' := by
  rw [dictInsert]
  split
  · rw [lookupKV_replaceMap, if_neg (Ne.symm h)]
  · rw [lookupKV_append]
    cases hl : lookupKV m k' with
    | some w => rfl
    | none =>
      have : (k == k') = false := by simp [Ne.symm h]
      simp [lookupKV, this]

/-- Association lists with duplicate-free keys are determined by their key
order and their lookup function. -/
theorem kv_ext : ∀ (m1 m2 : List (String × Json)), (keysOf m1).Nodup →
    keysOf m1 = keysOf m2 → (∀ k, lookupKV m1 k = lookupKV m2 k) → m1 = m2
  | [], [], _, _, _ => rfl
  | [], kv :: m2, _, hk, _ => by simp [keysOf] at hk
  | kv :: m1, [], _, hk, _ => by simp [keysOf] at hk
  | kv1 :: m1, kv2 :: m2, hnd, hk, hl => by
    simp only [keysOf, List.map_cons, List.cons.injEq] at hk
    obtain ⟨hk1, hk2⟩ := hk
    have hv : kv1.2 = kv2.2 := by
      have h := hl kv1.1
      have hb2 : (kv2.1 == kv1.1) = true := by simp [hk1]
      simp only [lookupKV, beq_self_eq_true, if_pos, hb2, if_true] at h
      exact Option.some.inj h
    have hnd1 : (keysOf m1).Nodup := (List.nodup_cons.mp (by simpa [keysOf] using hnd)).2
    have hmem : kv1.1 ∉ keysOf m1 := (List.nodup_cons.mp (by simpa [keysOf] using hnd)).1
    have htl : ∀ k, lookupKV m1 k = lookupKV m2 k := by
      intro k
      by_cases hkk : k = kv1.1
      · have h1 : lookupKV m1 k = none :=
          (lookupKV_eq_none_iff m1 k).mpr (by rw [hkk]; exact hmem)
        have h2 : lookupKV m2 k = none := by
          rw [lookupKV_eq_none_iff]
          intro hc
          apply hmem
          rw [hkk] at hc
          have hkeq : keysOf m2 = keysOf m1 := hk2.symm
          rwa [hkeq] at hc
        rw [h1, h2]
      · have h := hl k
        have hb1 : (kv1.1 == k) = false := by simp [Ne.symm hkk]
        have hb2 : (kv2.1 == k) = false := by rw [← hk1]; simp [Ne.symm hkk]
        simpa only [lookupKV, hb1, hb2, if_false] using h
    have htail : m1 = m2 := kv_ext m1 m2 hnd1 hk2 htl
    cases kv1; cases kv2
    simp only at hk1 hv
    simp [hk1, hv, htail]

/-- Apply a sequence of `d[k] = v` assignments, first element first. -/
def applySeq : List (String × Json) → List (String × Json) → List (String × Json)
  | [], m => m
  | kv :: S, m => applySeq S (dictInsert m kv.1 kv.2)

/-- The value `lastVal S k`: the value of the last assignment to `k` in `S`, if any. -/
def lastVal : List (String × Json) → String → Option Json
  | [], _ => none
  | kv :: S, k =>
    match lastVal S k with
    | some v => some v
    | none => if kv.1 == k then some kv.2 else none

theorem lookupKV_applySeq : ∀ (S m : List (String × Json)) (k : String),
    lookupKV (applySeq S m) k =
      match lastVal S k with
      | some v => some v
      | none => lookupKV m k
  | [], m, k => rfl
  | kv :: S, m, k => by
    simp only [applySeq, lastVal]
    rw [lookupKV_applySeq S _ k]
    cases lastVal S k with
    | some v => rfl
    | none =>
      cases hc : (kv.1 == k) with
      | true =>
        simp only [beq_iff_eq] at hc
        subst hc
        simp [lookupKV_dictInsert_self]
      | false =>
        rw [beq_eq_false_iff_ne] at hc
        simp [lookupKV_dictInsert_ne m kv.2 (Ne.symm hc)]

theorem mem_keysOf_applySeq : ∀ (S m : List (String × Json)) (k : String),
    k ∈ keysOf m → k ∈ keysOf (applySeq S m)
  | [], _, _, h => h
  | kv :: S, m, k, h =>
    mem_keysOf_applySeq S _ k ((mem_keysOf_dictInsert m kv.1 k kv.2).mpr (Or.inl h))

theorem sKeys_mem_applySeq : ∀ (S m : List (String × Json)), ∀ kv ∈ S,
    kv.1 ∈ keysOf (applySeq S m)
  | [], _, _, h => by simp at h
  | kv0 :: S, m, kv, h => by
    rcases List.mem_cons.mp h with rfl | h
    · exact mem_keysOf_applySeq S _ kv.1
        ((mem_keysOf_dictInsert m kv.1 kv.1 kv.2).mpr (Or.inr rfl))
    · exact sKeys_mem_applySeq S _ kv h

theorem keysOf_applySeq_of_sub : ∀ (S m : List (String × Json)),
    (∀ kv ∈ S, kv.1 ∈ keysOf m) → keysOf (applySeq S m) = keysOf m
  | [], _, _ => rfl
  | kv :: S, m, h => by
    have h0 : kv.1 ∈ keysOf m := h kv (List.mem_cons_self kv S)
    have hk := keysOf_dictInsert_of_mem kv.2 h0
    rw [applySeq, keysOf_applySeq_of_sub S _ (fun kv' h' => by
      rw [hk]; exact h kv' (List.mem_cons_of_mem kv h')), hk]

theorem nodup_keysOf_applySeq : ∀ (S m : List (String × Json)),
    (keysOf m).Nodup → (keysOf (applySeq S m)).Nodup
  | [], _, h => h
  | kv :: S, m, h => nodup_keysOf_applySeq S _ (nodup_keysOf_dictInsert kv.1 kv.2 h)

/-- Re-playing the same assignment sequence is a no-op. -/
theorem applySeq_idem (S m : List (String × Json)) (h : (keysOf m).Nodup) :
    applySeq S (applySeq S m) = applySeq S m := by
  apply kv_ext
  · exact nodup_keysOf_applySeq S _ (nodup_keysOf_applySeq S m h)
  · exact keysOf_applySeq_of_sub S _ (fun kv hkv => sKeys_mem_applySeq S m kv hkv)
  · intro k
    rw [lookupKV_applySeq, lookupKV_applySeq]
    cases lastVal S k with
    | some v => rfl
    | none => rfl

/-! ### Behaviour of `process` -/

theorem set_get_self {α : Type _} : ∀ (l : List α) (i : Nat) (a : α),
    l[i]? = some a → l.set i a = l
  | [], _, _, h => by simp at h
  | x :: l, 0, a, h => by
    simp only [List.getElem?_cons_zero, Option.some.injEq] at h
    simp [List.set, h]
  | x :: l, i+1, a, h => by
    simp only [List.getElem?_cons_succ] at h
    simp [List.set, set_get_self l i a h]

theorem attachNodeResult_falsy {p : EnricherPass} {nd : Node} {r : Option Json}
    (h : otruthy r = false) : attachNodeResult p nd r = nd := by
  cases r with
  | none => rfl
  | some v => simp only [otruthy] at h; simp [attachNodeResult, h]

theorem attachEdgeResult_falsy {p : EnricherPass} {ed : Edge} {r : Option Json}
    (h : otruthy r = false) : attachEdgeResult p ed r = ed := by
  cases r with
  | none => rfl
  | some v => simp only [otruthy] at h; simp [attachEdgeResult, h]

theorem stepNode_falsy {p : EnricherPass} {ctx : List Graph}
    (h : ∀ n g', otruthy (p.enrich_node n g' ctx) = false) (g : Graph) (i : Nat) :
    stepNode p ctx g i = g := by
  unfold stepNode
  cases hg : g.nodes[i]? with
  | none => rfl
  | some nd =>
    dsimp only
    rw [attachNodeResult_falsy (h nd g), set_get_self _ _ _ hg]

theorem stepEdge_falsy {p : EnricherPass} {ctx : List Graph}
    (h : ∀ e g', otruthy (p.enrich_edge e g' ctx) = false) (g : Graph) (i : Nat) :
    stepEdge p ctx g i = g := by
  unfold stepEdge
  cases hg : g.edges[i]? with
  | none => rfl
  | some ed =>
    dsimp only
    rw [attachEdgeResult_falsy (h ed g), set_get_self _ _ _ hg]

theorem processNodesAux_falsy {p : EnricherPass} {ctx : List Graph}
    (h : ∀ n g', otruthy (p.enrich_node n g' ctx) = false) :
    ∀ fuel i (g : Graph), processNodesAux p ctx fuel i g = g
  | 0, _, _ => rfl
  | fuel+1, i, g => by
    rw [processNodesAux, stepNode_falsy h, processNodesAux_falsy h fuel (i+1)]

theorem processEdgesAux_falsy {p : EnricherPass} {ctx : List Graph}
    (h : ∀ e g', otruthy (p.enrich_edge e g' ctx) = false) :
    ∀ fuel i (g : Graph), processEdgesAux p ctx fuel i g = g
  | 0, _, _ => rfl
  | fuel+1, i, g => by
    rw [processEdgesAux, stepEdge_falsy h, processEdgesAux_falsy h fuel (i+1)]

theorem stepEdge_nodes (p : EnricherPass) (ctx : List Graph) (g : Graph) (i : Nat) :
    (stepEdge p ctx g i).nodes = g.nodes := by
  unfold stepEdge
  cases g.edges[i]? <;> rfl

theorem processEdgesAux_nodes (p : EnricherPass) (ctx : List Graph) :
    ∀ fuel i (g : Graph), (processEdgesAux p ctx fuel i g).nodes = g.nodes
  | 0, _, _ => rfl
  | fuel+1, i, g => by
    rw [processEdgesAux, processEdgesAux_nodes p ctx fuel (i+1), stepEdge_nodes]

theorem stepNode_edges (p : EnricherPass) (ctx : List Graph) (g : Graph) (i : Nat) :
    (stepNode p ctx g i).edges = g.edges := by
  unfold stepNode
  cases g.nodes[i]? <;> rfl

theorem processNodesAux_edges (p : EnricherPass) (ctx : List Graph) :
    ∀ fuel i (g : Graph), (processNodesAux p ctx fuel i g).edges = g.edges
  | 0, _, _ => rfl
  | fuel+1, i, g => by
    rw [processNodesAux, processNodesAux_edges p ctx fuel (i+1), stepNode_edges]

/-- A pass whose `enrich_node` returns a falsy result for every node does not
change the node list at all. -/
theorem process_nodes_falsy {p : EnricherPass} {ctx : List Graph}
    (hn : ∀ n g', otruthy (p.enrich_node n g' ctx) = false) (g : Graph) :
    (p.process g ctx).nodes = g.nodes := by
  rw [EnricherPass.process, deepCopy_eq]
  show (processEdgesAux p ctx _ 0 (processNodesAux p ctx g.nodes.length 0 g)).nodes = g.nodes
  rw [processEdgesAux_nodes, processNodesAux_falsy hn]

/-- A pass whose results are all falsy returns the graph unchanged. -/
theorem process_falsy {p : EnricherPass} {ctx : List Graph}
    (hn : ∀ n g', otruthy (p.enrich_node n g' ctx) = false)
    (he : ∀ e g', otruthy (p.enrich_edge e g' ctx) = false) (g : Graph) :
    p.process g ctx = g := by
  rw [EnricherPass.process, deepCopy_eq]
  show processEdgesAux p ctx _ 0 (processNodesAux p ctx g.nodes.length 0 g) = g
  rw [processNodesAux_falsy hn, processEdgesAux_falsy he]

/-- The fingerprint `_compute_hash` reads only the node list. -/
theorem compute_hash_eq_of_nodes {g1 g2 : Graph} (h : g1.nodes = g2.nodes) :
    compute_hash g1 = compute_hash g2 := by
  rw [compute_hash, compute_hash, h]

/-- A pipeline of passes with falsy outputs leaves the graph and the
`iteration_changed` flag untouched. -/
theorem pipelineStep_falsy {ctx : List Graph} :
    ∀ (passes : List EnricherPass),
      (∀ p ∈ passes, ∀ n g', otruthy (p.enrich_node n g' ctx) = false) →
      (∀ p ∈ passes, ∀ e g', otruthy (p.enrich_edge e g' ctx) = false) →
      ∀ g b, pipelineStep ctx passes g b = (g, b)
  | [], _, _, _, _ => rfl
  | p :: ps, hn, he, g, b => by
    have hp := process_falsy (hn p (List.mem_cons_self p ps)) (he p (List.mem_cons_self p ps)) g
    rw [pipelineStep, hp]
    simp only [bne_self_eq_false, Bool.or_false]
    exact pipelineStep_falsy ps (fun q hq => hn q (List.mem_cons_of_mem p hq))
      (fun q hq => he q (List.mem_cons_of_mem p hq)) g b

/-- A pipeline of passes with falsy node outputs (edge outputs arbitrary)
leaves the node list and the `iteration_changed` flag untouched: the
fingerprint never sees edges. -/
theorem pipelineStep_nodes_falsy {ctx : List Graph} :
    ∀ (passes : List EnricherPass),
      (∀ p ∈ passes, ∀ n g', otruthy (p.enrich_node n g' ctx) = false) →
      ∀ g b, (pipelineStep ctx passes g b).1.nodes = g.nodes ∧ (pipelineStep ctx passes g b).2 = b
  | [], _, _, _ => ⟨rfl, rfl⟩
  | p :: ps, hn, g, b => by
    have hp := process_nodes_falsy (hn p (List.mem_cons_self p ps)) g
    rw [pipelineStep]
    rw [compute_hash_eq_of_nodes hp]
    simp only [bne_self_eq_false, Bool.or_false]
    have := pipelineStep_nodes_falsy ps (fun q hq => hn q (List.mem_cons_of_mem p hq))
      (p.process g ctx) b
    exact ⟨this.1.trans hp, this.2⟩

/-! ### Passes whose output is a pure function of node identity -/

/-- The map `attachP F p` is what one `process` call does to each single node when the
pass's node output is the pure function `F p` of the node id. -/
def attachP (F : EnricherPass → String → Option Json) (p : EnricherPass) (nd : Node) : Node :=
  attachNodeResult p nd (F p nd.id)

/-- The per-node effect of a whole pipeline of identity-pure passes. -/
def chainAttach (F : EnricherPass → String → Option Json) : List EnricherPass → Node → Node
  | [], nd => nd
  | p :: ps, nd => chainAttach F ps (attachP F p nd)

/-- The assignment sequence a pipeline of identity-pure passes performs on the
enrichment dict of the node with id `i`. -/
def passActions (F : EnricherPass → String → Option Json) :
    List EnricherPass → String → List (String × Json)
  | [], _ => []
  | p :: ps, i =>
    (match F p i with
     | some v => if jtruthy v then [(layerKey p, v)] else []
     | none => []) ++ passActions F ps i

/-- Apply an assignment sequence to an optional enrichment dict (the
`'enrichment'` key is created by the first assignment). -/
def attachSeqO : List (String × Json) → Option (List (String × Json)) → Option (List (String × Json))
  | [], e => e
  | kv :: S, e => attachSeqO S (some (dictInsert (e.getD []) kv.1 kv.2))

theorem attachSeqO_some : ∀ (S : List (String × Json)) (m : List (String × Json)),
    attachSeqO S (some m) = some (applySeq S m)
  | [], _ => rfl
  | kv :: S, m => by rw [attachSeqO, applySeq]; exact attachSeqO_some S _

theorem attachSeqO_append : ∀ (A B : List (String × Json)) (e : Option (List (String × Json))),
    attachSeqO (A ++ B) e = attachSeqO B (attachSeqO A e)
  | [], _, _ => rfl
  | kv :: A, B, e => by rw [List.cons_append, attachSeqO, attachSeqO, attachSeqO_append A B]

theorem attachNodeResult_id (p : EnricherPass) (nd : Node) (r : Option Json) :
    (attachNodeResult p nd r).id = nd.id := by
  cases r with
  | none => rfl
  | some v =>
    unfold attachNodeResult
    by_cases h : jtruthy v = true <;> simp [h]

theorem attachNodeResult_eq_attachSeqO (p : EnricherPass) (nd : Node) (r : Option Json) :
    attachNodeResult p nd r =
      { nd with enrichment :=
          attachSeqO (match r with
            | some v => if jtruthy v then [(layerKey p, v)] else []
            | none => []) nd.enrichment } := by
  cases r with
  | none => rfl
  | some v =>
    unfold attachNodeResult
    by_cases h : jtruthy v = true
    · simp only [h, if_true]
      rfl
    · simp only [h]
      rfl

theorem chainAttach_eq (F : EnricherPass → String → Option Json) :
    ∀ (passes : List EnricherPass) (nd : Node),
      chainAttach F passes nd =
        { nd with enrichment := attachSeqO (passActions F passes nd.id) nd.enrichment }
  | [], nd => rfl
  | p :: ps, nd => by
    rw [chainAttach, chainAttach_eq F ps, passActions, attachSeqO_append]
    rw [attachP, attachNodeResult_eq_attachSeqO]

theorem chainAttach_id (F : EnricherPass → String → Option Json)
    (passes : List EnricherPass) (nd : Node) : (chainAttach F passes nd).id = nd.id := by
  rw [chainAttach_eq]

/-- Replaying an identity-pure pipeline on a node it has already enriched
changes nothing (provided the node's enrichment dict, like every Python dict,
has duplicate-free keys). -/
theorem chainAttach_idem (F : EnricherPass → String → Option Json)
    (passes : List EnricherPass) (nd : Node)
    (h : (keysOf (nd.enrichment.getD [])).Nodup) :
    chainAttach F passes (chainAttach F passes nd) = chainAttach F passes nd := by
  rw [chainAttach_eq F passes nd, chainAttach_eq F passes]
  dsimp only
  congr 1
  cases hS : passActions F passes nd.id with
  | nil => rfl
  | cons kv S =>
    simp only [attachSeqO, attachSeqO_some, Option.getD_some]
    have hidem := applySeq_idem (kv :: S) (nd.enrichment.getD []) h
    simp only [applySeq] at hidem
    exact congrArg some hidem

/-- One step of the node loop, observed through `getElem?`, when the pass's
node output factors through the node id. -/
theorem stepNode_getElem (p : EnricherPass) (ctx : List Graph) (f : String → Option Json)
    (hp : ∀ n g', p.enrich_node n g' ctx = f n.id) (g : Graph) (i j : Nat) :
    (stepNode p ctx g i).nodes[j]? =
      if j = i then (g.nodes[j]?).map (fun nd => attachNodeResult p nd (f nd.id))
      else g.nodes[j]? := by
  unfold stepNode
  cases hg : g.nodes[i]? with
  | none =>
    by_cases hj : j = i
    · subst hj
      rw [if_pos rfl, hg]
      rfl
    · rw [if_neg hj]
  | some nd =>
    dsimp only
    rw [hp]
    by_cases hj : j = i
    · subst hj
      rw [if_pos rfl, hg]
      have hlen : j < g.nodes.length := by
        by_contra hc
        rw [List.getElem?_eq_none (by omega)] at hg
        exact Option.noConfusion hg
      simp [List.getElem?_set, hlen, hg]
    · rw [if_neg hj]
      have hne : i ≠ j := fun hh => hj hh.symm
      simp [List.getElem?_set, hne]

theorem processNodesAux_getElem (p : EnricherPass) (ctx : List Graph)
    (f : String → Option Json) (hp : ∀ n g', p.enrich_node n g' ctx = f n.id) :
    ∀ (fuel i : Nat) (g : Graph) (j : Nat),
      (processNodesAux p ctx fuel i g).nodes[j]? =
        if i ≤ j ∧ j < i + fuel then (g.nodes[j]?).map (fun nd => attachNodeResult p nd (f nd.id))
        else g.nodes[j]?
  | 0, i, g, j => by
    rw [processNodesAux, if_neg (by omega)]
  | fuel+1, i, g, j => by
    rw [processNodesAux, processNodesAux_getElem p ctx f hp fuel (i+1) _ j]
    rw [stepNode_getElem p ctx f hp g i j]
    split_ifs <;> first | rfl | omega

/-- Running `process` of an identity-pure pass maps `attachP` over the node list. -/
theorem process_nodes_map (p : EnricherPass) (ctx : List Graph)
    (f : String → Option Json) (hp : ∀ n g', p.enrich_node n g' ctx = f n.id) (g : Graph) :
    (p.process g ctx).nodes = g.nodes.map (fun nd => attachNodeResult p nd (f nd.id)) := by
  rw [EnricherPass.process, deepCopy_eq]
  show (processEdgesAux p ctx _ 0 (processNodesAux p ctx g.nodes.length 0 g)).nodes = _
  rw [processEdgesAux_nodes]
  apply List.ext_getElem?
  intro j
  rw [processNodesAux_getElem p ctx f hp, List.getElem?_map]
  by_cases hj : j < g.nodes.length
  · rw [if_pos (by omega)]
  · rw [if_neg (by omega), List.getElem?_eq_none (by omega : g.nodes.length ≤ j)]
    rfl

/-- A pipeline of identity-pure passes maps `chainAttach` over the node list. -/
theorem pipelineStep_nodes_map (ctx : List Graph) (F : EnricherPass → String → Option Json) :
    ∀ (passes : List EnricherPass),
      (∀ p ∈ passes, ∀ n g', p.enrich_node n g' ctx = F p n.id) →
      ∀ g b, (pipelineStep ctx passes g b).1.nodes = g.nodes.map (chainAttach F passes)
  | [], _, g, b => by
    rw [pipelineStep]
    show g.nodes = _
    rw [show chainAttach F [] = fun nd => nd from rfl, List.map_id']
  | p :: ps, hF, g, b => by
    rw [pipelineStep]
    rw [pipelineStep_nodes_map ctx F ps (fun q hq => hF q (List.mem_cons_of_mem p hq))]
    rw [process_nodes_map p ctx (F p) (hF p (List.mem_cons_self p ps)), List.map_map]
    rfl

/-! ### The iteration loop -/

/-- One unfolding of the iteration loop (the `let`s of `enrichLoop` expanded). -/
theorem enrichLoop_succ (passes : List EnricherPass) (outDir : String) (conv : Bool)
    (fuel done : Nat) (g : Graph) (layers : List Graph) (prev : Option String)
    (st ex : List String) :
    enrichLoop passes outDir conv (fuel+1) done g layers prev st ex =
      if conv = true ∧ prev = some (compute_hash (pipelineStep layers passes g false).1) then
        ⟨(pipelineStep layers passes g false).1,
         layers ++ [deepCopy (pipelineStep layers passes g false).1], done + 1, .converged,
         (passes.map (layerPath outDir)).foldl writePath st, ex ++ passes.map EnricherPass.name⟩
      else if (pipelineStep layers passes g false).2 = false then
        ⟨(pipelineStep layers passes g false).1,
         layers ++ [deepCopy (pipelineStep layers passes g false).1], done + 1, .stalled,
         (passes.map (layerPath outDir)).foldl writePath st, ex ++ passes.map EnricherPass.name⟩
      else
        enrichLoop passes outDir conv fuel (done + 1) (pipelineStep layers passes g false).1
          (layers ++ [deepCopy (pipelineStep layers passes g false).1])
          (some (compute_hash (pipelineStep layers passes g false).1))
          ((passes.map (layerPath outDir)).foldl writePath st)
          (ex ++ passes.map EnricherPass.name) := rfl

/-- If the loop stops as Converged, it stopped at some iteration after `done`. -/
theorem enrichLoop_converged_iter (passes : List EnricherPass) (outDir : String) (conv : Bool) :
    ∀ (fuel done : Nat) (g : Graph) (layers : List Graph) (prev : Option String)
      (st ex : List String),
      (enrichLoop passes outDir conv fuel done g layers prev st ex).stop = .converged →
      done + 1 ≤ (enrichLoop passes outDir conv fuel done g layers prev st ex).iterations
  | 0, done, g, layers, prev, st, ex => by
    intro h
    simp [enrichLoop] at h
  | fuel+1, done, g, layers, prev, st, ex => by
    intro h
    rw [enrichLoop_succ] at h ⊢
    by_cases h1 : conv = true ∧ prev = some (compute_hash (pipelineStep layers passes g false).1)
    · rw [if_pos h1]
    · rw [if_neg h1] at h ⊢
      by_cases hb : (pipelineStep layers passes g false).2 = false
      · rw [if_pos hb] at h
        exact absurd h (by simp)
      · rw [if_neg hb] at h ⊢
        have := enrichLoop_converged_iter passes outDir conv fuel (done+1) _ _ _ _ _ h
        omega

/-- Starting an iteration with no previous fingerprint (`prev_hash is None`),
the loop cannot stop as Converged in that iteration. -/
theorem enrichLoop_none_converged_iter (passes : List EnricherPass) (outDir : String)
    (conv : Bool) (fuel done : Nat) (g : Graph) (layers : List Graph) (st ex : List String)
    (h : (enrichLoop passes outDir conv (fuel+1) done g layers none st ex).stop = .converged) :
    done + 2 ≤ (enrichLoop passes outDir conv (fuel+1) done g layers none st ex).iterations := by
  rw [enrichLoop_succ] at h ⊢
  have h1 : ¬(conv = true ∧ (none : Option String) =
      some (compute_hash (pipelineStep layers passes g false).1)) := by
    rintro ⟨-, hc⟩
    exact Option.noConfusion hc
  rw [if_neg h1] at h ⊢
  by_cases hb : (pipelineStep layers passes g false).2 = false
  · rw [if_pos hb] at h
    exact absurd h (by simp)
  · rw [if_neg hb] at h ⊢
    exact enrichLoop_converged_iter passes outDir conv fuel (done+1) _ _ _ _ _ h

/-! ### Claim C2: convergence is unreachable at iteration 1 -/

/-- C2: for every base graph, pipeline and `max_iterations ≥ 1`, with
`convergence_check = true` the Converged exit never fires at iteration 1:
`prev_hash` is `None` when iteration 1 is checked, so a Converged stop implies
at least two iterations ran. -/
theorem converged_only_from_iteration_two (base : Graph) (passes : List EnricherPass)
    (outDir : String) (maxIter : Nat) (h1 : 1 ≤ maxIter)
    (h : (enrich base passes outDir maxIter true).stop = .converged) :
    2 ≤ (enrich base passes outDir maxIter true).iterations := by
  obtain ⟨m, rfl⟩ : ∃ m, maxIter = m + 1 := ⟨maxIter - 1, by omega⟩
  exact enrichLoop_none_converged_iter passes outDir true m 0 (deepCopy base) [] [] [] h

def c2Node : Node := ⟨"n1", "thing", "function", "a.py", .null, .obj [], none⟩

def c2Base : Graph := ⟨[c2Node], []⟩

def c2Pass : EnricherPass :=
  ⟨1, "static", fun _ _ _ => some (.obj [("static", .str "value")]), fun _ _ _ => none⟩

set_option maxRecDepth 200000 in
/-- Witness for C2 at a concrete converging run. -/
theorem converged_only_from_iteration_two_witness :
    (1 ≤ 3 ∧ (enrich c2Base [c2Pass] "out" 3 true).stop = .converged) ∧
    2 ≤ (enrich c2Base [c2Pass] "out" 3 true).iterations :=
  ⟨⟨by decide, by decide⟩,
   converged_only_from_iteration_two c2Base [c2Pass] "out" 3 (by decide) (by decide)⟩

/-! ### Claim C4: a pipeline producing no enrichment stalls at iteration 1 -/

/-- C4: if every pass returns a falsy (`None`/empty) result for every node and
edge, the run stops after exactly one iteration through the stall branch
(`iteration_changed` stays false), whatever `convergence_check` is, and the
history has length 1. -/
theorem no_output_pipeline_stalls_at_one (base : Graph) (passes : List EnricherPass)
    (outDir : String) (maxIter : Nat) (conv : Bool) (h1 : 1 ≤ maxIter)
    (hn : ∀ p ∈ passes, ∀ n g ctx, otruthy (p.enrich_node n g ctx) = false)
    (he : ∀ p ∈ passes, ∀ e g ctx, otruthy (p.enrich_edge e g ctx) = false) :
    (enrich base passes outDir maxIter conv).stop = .stalled ∧
    (enrich base passes outDir maxIter conv).iterations = 1 ∧
    (enrich base passes outDir maxIter conv).layers.length = 1 := by
  obtain ⟨m, rfl⟩ : ∃ m, maxIter = m + 1 := ⟨maxIter - 1, by omega⟩
  have hstep := pipelineStep_falsy passes
    (fun p hp n g' => hn p hp n g' []) (fun p hp e g' => he p hp e g' [])
    (deepCopy base) false
  have hrun : enrichLoop passes outDir conv (m+1) 0 (deepCopy base) [] none [] [] =
      ⟨deepCopy base, [] ++ [deepCopy (deepCopy base)], 0 + 1, .stalled,
       (passes.map (layerPath outDir)).foldl writePath [], [] ++ passes.map EnricherPass.name⟩ := by
    rw [enrichLoop_succ, hstep]
    rw [if_neg (by rintro ⟨-, hc⟩; exact Option.noConfusion hc)]
    rw [if_pos rfl]
  refine ⟨?_, ?_, ?_⟩
  · show (enrichLoop passes outDir conv (m+1) 0 (deepCopy base) [] none [] []).stop = .stalled
    rw [hrun]
  · show (enrichLoop passes outDir conv (m+1) 0 (deepCopy base) [] none [] []).iterations = 1
    rw [hrun]
  · show (enrichLoop passes outDir conv (m+1) 0 (deepCopy base) [] none [] []).layers.length = 1
    rw [hrun]
    rfl

def c4Node : Node := ⟨"n1", "alpha", "class", "a.py", .null, .obj [], none⟩

def c4Base : Graph := ⟨[c4Node], [⟨"n1", "n1", "calls", none⟩]⟩

def c4Pass : EnricherPass := ⟨1, "noop", fun _ _ _ => none, fun _ _ _ => some (.obj [])⟩

set_option maxRecDepth 200000 in
/-- Witness for C4: a pass returning `None` for nodes and an empty dict for
edges (both falsy) stalls a 4-iteration run at iteration 1. -/
theorem no_output_pipeline_stalls_at_one_witness :
    (1 ≤ 4 ∧
      (∀ p ∈ [c4Pass], ∀ n g ctx, otruthy (p.enrich_node n g ctx) = false) ∧
      (∀ p ∈ [c4Pass], ∀ e g ctx, otruthy (p.enrich_edge e g ctx) = false)) ∧
    ((enrich c4Base [c4Pass] "out" 4 true).stop = .stalled ∧
      (enrich c4Base [c4Pass] "out" 4 true).iterations = 1 ∧
      (enrich c4Base [c4Pass] "out" 4 true).layers.length = 1) :=
  ⟨⟨by decide,
    fun p hp n g ctx => by
      rcases List.mem_singleton.mp hp with rfl
      rfl,
    fun p hp e g ctx => by
      rcases List.mem_singleton.mp hp with rfl
      rfl⟩,
   no_output_pipeline_stalls_at_one c4Base [c4Pass] "out" 4 true (by decide)
     (fun p hp n g ctx => by rcases List.mem_singleton.mp hp with rfl; rfl)
     (fun p hp e g ctx => by rcases List.mem_singleton.mp hp with rfl; rfl)⟩

/-! ### Claim C10: the fingerprint never sees edge enrichment -/

/-- C10: `_compute_hash` depends only on the node list, so two graphs with the
same nodes and arbitrarily different edges fingerprint identically; and a
pipeline whose passes enrich only edges (falsy node results) stalls after
iteration 1 even though it wrote edge enrichment. -/
theorem fingerprint_ignores_edges (g1 g2 : Graph) (hnodes : g1.nodes = g2.nodes)
    (base : Graph) (passes : List EnricherPass) (outDir : String) (maxIter : Nat)
    (conv : Bool) (h1 : 1 ≤ maxIter)
    (hn : ∀ p ∈ passes, ∀ n g ctx, otruthy (p.enrich_node n g ctx) = false) :
    compute_hash g1 = compute_hash g2 ∧
    (enrich base passes outDir maxIter conv).stop = .stalled ∧
    (enrich base passes outDir maxIter conv).iterations = 1 ∧
    (enrich base passes outDir maxIter conv).layers.length = 1 := by
  obtain ⟨m, rfl⟩ : ∃ m, maxIter = m + 1 := ⟨maxIter - 1, by omega⟩
  have hstep := pipelineStep_nodes_falsy passes
    (fun p hp n g' => hn p hp n g' []) (deepCopy base) false
  have hrun : enrichLoop passes outDir conv (m+1) 0 (deepCopy base) [] none [] [] =
      ⟨(pipelineStep [] passes (deepCopy base) false).1,
       [] ++ [deepCopy (pipelineStep [] passes (deepCopy base) false).1], 0 + 1, .stalled,
       (passes.map (layerPath outDir)).foldl writePath [], [] ++ passes.map EnricherPass.name⟩ := by
    rw [enrichLoop_succ]
    rw [if_neg (by rintro ⟨-, hc⟩; exact Option.noConfusion hc)]
    rw [if_pos hstep.2]
  refine ⟨compute_hash_eq_of_nodes hnodes, ?_, ?_, ?_⟩
  · show (enrichLoop passes outDir conv (m+1) 0 (deepCopy base) [] none [] []).stop = .stalled
    rw [hrun]
  · show (enrichLoop passes outDir conv (m+1) 0 (deepCopy base) [] none [] []).iterations = 1
    rw [hrun]
  · show (enrichLoop passes outDir conv (m+1) 0 (deepCopy base) [] none [] []).layers.length = 1
    rw [hrun]
    rfl

def c10Node : Node := ⟨"n1", "alpha", "class", "a.py", .null, .obj [], none⟩

def c10G1 : Graph := ⟨[c10Node], [⟨"n1", "n1", "calls", none⟩]⟩

def c10G2 : Graph :=
  ⟨[c10Node], [⟨"n1", "n1", "calls", some [("layer9", .obj [("w", .num 3)])]⟩,
               ⟨"n1", "n1", "uses", none⟩]⟩

def c10Pass : EnricherPass :=
  ⟨1, "edgeonly", fun _ _ _ => none, fun _ _ _ => some (.obj [("weight", .num 1)])⟩

set_option maxRecDepth 200000 in
/-- Witness for C10: same nodes / different edge enrichment hash equal, and an
edge-only pipeline stalls at iteration 1 while its final graph does carry the
new edge enrichment. -/
theorem fingerprint_ignores_edges_witness :
    (c10G1.nodes = c10G2.nodes ∧ 1 ≤ 2) ∧
    (compute_hash c10G1 = compute_hash c10G2 ∧
      (enrich c10G1 [c10Pass] "out" 2 true).stop = .stalled ∧
      (enrich c10G1 [c10Pass] "out" 2 true).iterations = 1 ∧
      (enrich c10G1 [c10Pass] "out" 2 true).layers.length = 1) ∧
    (enrich c10G1 [c10Pass] "out" 2 true).graph.edges.all
      (fun e => (lookupEnrich e.enrichment "layer1").isSome) = true :=
  ⟨⟨rfl, by decide⟩,
   fingerprint_ignores_edges c10G1 c10G2 rfl c10G1 [c10Pass] "out" 2 true (by decide)
     (fun p hp n g ctx => by rcases List.mem_singleton.mp hp with rfl; rfl),
   by decide⟩

/-! ### Claim C7: the fingerprint is invariant under node reordering -/

/-- C7: `_compute_hash` serializes each enriched node's enrichment dict with
sorted keys, sorts the strings, then hashes — so any two graphs whose node
sequences are permutations of one another fingerprint identically. -/
theorem compute_hash_perm_invariant (g1 g2 : Graph) (h : g1.nodes.Perm g2.nodes) :
    compute_hash g1 = compute_hash g2 := by
  rw [compute_hash, compute_hash]
  exact congrArg String.join (sortStrings_perm (List.Perm.filterMap _ h))

def c7N1 : Node :=
  ⟨"a", "x", "class", "a.py", .null, .obj [], some [("layer1", .obj [("k", .num 1)])]⟩

def c7N2 : Node :=
  ⟨"b", "y", "function", "a.py", .null, .obj [], some [("layer2", .obj [("k", .num 2)])]⟩

def c7G1 : Graph := ⟨[c7N1, c7N2], []⟩

def c7G2 : Graph := ⟨[c7N2, c7N1], [⟨"a", "b", "calls", none⟩]⟩

/-- Witness for C7 on two concrete graphs with swapped node order. -/
theorem compute_hash_perm_invariant_witness :
    c7G1.nodes.Perm c7G2.nodes ∧ compute_hash c7G1 = compute_hash c7G2 :=
  ⟨List.Perm.swap c7N2 c7N1 [],
   compute_hash_perm_invariant c7G1 c7G2 (List.Perm.swap c7N2 c7N1 [])⟩

/-! ### Claim C1 (amended): identity-pure pipelines converge at iteration 2 -/

/-- C1 as amended: a pipeline of passes whose `enrich_node`/`enrich_edge`
output is a pure function of entity identity, run with `max_iterations ≥ 2`
and `convergence_check = true`, stops during iteration 2 in state Converged —
PROVIDED iteration 1 actually changes the node fingerprint (the claim as
stated is false for e.g. a pipeline producing no node enrichment at all,
which stalls at iteration 1: see the counterexample).  The `hWF` hypothesis
records that the base graph's enrichment dicts, being Python dicts, have
duplicate-free keys. -/
theorem identity_pure_pipeline_converges_at_two (base : Graph) (passes : List EnricherPass)
    (outDir : String) (maxIter : Nat) (F : EnricherPass → String → Option Json)
    (hWF : ∀ n ∈ base.nodes, (keysOf (n.enrichment.getD [])).Nodup)
    (hF : ∀ p ∈ passes, ∀ n g ctx, p.enrich_node n g ctx = F p n.id)
    (hE : ∀ p ∈ passes, ∃ fe : String → String → String → Option Json,
      ∀ ed g ctx, p.enrich_edge ed g ctx = fe ed.source ed.target ed.type)
    (hchanged : (pipelineStep [] passes base false).2 = true)
    (h2 : 2 ≤ maxIter) :
    (enrich base passes outDir maxIter true).stop = .converged ∧
    (enrich base passes outDir maxIter true).iterations = 2 ∧
    (enrich base passes outDir maxIter true).layers.length = 2 := by
  obtain ⟨m, rfl⟩ : ∃ m, maxIter = m + 2 := ⟨maxIter - 2, by omega⟩
  have hd : deepCopy base = base := deepCopy_eq base
  have hF0 : ∀ p ∈ passes, ∀ n g', p.enrich_node n g' [] = F p n.id :=
    fun p hp n g' => hF p hp n g' []
  have hFc : ∀ p ∈ passes, ∀ n g',
      p.enrich_node n g' ([] ++ [deepCopy (pipelineStep [] passes base false).1]) = F p n.id :=
    fun p hp n g' => hF p hp n g' _
  have h1nodes : (pipelineStep [] passes base false).1.nodes =
      base.nodes.map (chainAttach F passes) :=
    pipelineStep_nodes_map [] F passes hF0 base false
  have h2nodes :
      (pipelineStep ([] ++ [deepCopy (pipelineStep [] passes base false).1]) passes
        (pipelineStep [] passes base false).1 false).1.nodes =
      (pipelineStep [] passes base false).1.nodes.map (chainAttach F passes) :=
    pipelineStep_nodes_map _ F passes hFc (pipelineStep [] passes base false).1 false
  have hidem : (pipelineStep [] passes base false).1.nodes.map (chainAttach F passes) =
      (pipelineStep [] passes base false).1.nodes := by
    rw [h1nodes, List.map_map]
    apply List.map_congr_left
    intro nd hnd
    show chainAttach F passes (chainAttach F passes nd) = chainAttach F passes nd
    exact chainAttach_idem F passes nd (hWF nd hnd)
  have hhash :
      compute_hash (pipelineStep ([] ++ [deepCopy (pipelineStep [] passes base false).1]) passes
        (pipelineStep [] passes base false).1 false).1 =
      compute_hash (pipelineStep [] passes base false).1 :=
    compute_hash_eq_of_nodes (h2nodes.trans hidem)
  have hloop : enrichLoop passes outDir true (m+2) 0 (deepCopy base) [] none [] [] =
      ⟨(pipelineStep ([] ++ [deepCopy (pipelineStep [] passes base false).1]) passes
          (pipelineStep [] passes base false).1 false).1,
       ([] ++ [deepCopy (pipelineStep [] passes base false).1]) ++
         [deepCopy (pipelineStep ([] ++ [deepCopy (pipelineStep [] passes base false).1]) passes
            (pipelineStep [] passes base false).1 false).1],
       0 + 1 + 1, .converged,
       (passes.map (layerPath outDir)).foldl writePath
         ((passes.map (layerPath outDir)).foldl writePath []),
       ([] ++ passes.map EnricherPass.name) ++ passes.map EnricherPass.name⟩ := by
    rw [show (m+2) = (m+1)+1 from rfl, enrichLoop_succ, hd]
    rw [if_neg (by rintro ⟨-, hc⟩; exact Option.noConfusion hc)]
    rw [if_neg (by simp [hchanged])]
    rw [enrichLoop_succ]
    rw [if_pos ⟨rfl, by rw [hhash]⟩]
  refine ⟨?_, ?_, ?_⟩
  · show (enrichLoop passes outDir true (m+2) 0 (deepCopy base) [] none [] []).stop = .converged
    rw [hloop]
  · show (enrichLoop passes outDir true (m+2) 0 (deepCopy base) [] none [] []).iterations = 2
    rw [hloop]
  · show (enrichLoop passes outDir true (m+2) 0 (deepCopy base) [] none [] []).layers.length = 2
    rw [hloop]
    rfl

def c1Node : Node := ⟨"n1", "alpha", "class", "a.py", .null, .obj [], none⟩

def c1Base : Graph := ⟨[c1Node], []⟩

def c1NonePass : EnricherPass := ⟨1, "silent", fun _ _ _ => none, fun _ _ _ => none⟩

set_option maxRecDepth 200000 in
/-- Counterexample to C1 as stated: `c1NonePass` returns `None` for every
entity, so its output is (vacuously) a pure function of node identity, yet a
run with `max_iterations = 2` and `convergence_check = true` stops at
iteration 1 in state Stalled, not at iteration 2 in state Converged. -/
theorem c1_as_stated_counterexample :
    (∀ p ∈ [c1NonePass], ∀ n g ctx,
      p.enrich_node n g ctx = (fun (_ : String) => (none : Option Json)) n.id) ∧
    (∀ p ∈ [c1NonePass], ∀ e g ctx,
      p.enrich_edge e g ctx = (fun (_ : String) => (none : Option Json)) e.source) ∧
    (enrich c1Base [c1NonePass] "out" 2 true).stop = .stalled ∧
    ¬ ((enrich c1Base [c1NonePass] "out" 2 true).stop = .converged ∧
       (enrich c1Base [c1NonePass] "out" 2 true).iterations = 2) :=
  ⟨fun p hp n g ctx => by rcases List.mem_singleton.mp hp with rfl; rfl,
   fun p hp e g ctx => by rcases List.mem_singleton.mp hp with rfl; rfl,
   by decide, by decide⟩

def c1wNode : Node := ⟨"n1", "alpha", "class", "a.py", .null, .obj [], none⟩

def c1wBase : Graph := ⟨[c1wNode], [⟨"n1", "n1", "calls", none⟩]⟩

def c1wPass : EnricherPass :=
  ⟨1, "tag", fun n _ _ => some (.obj [("tag", .str n.id)]), fun _ _ _ => none⟩

def c1wF : EnricherPass → String → Option Json := fun _ i => some (.obj [("tag", .str i)])

set_option maxRecDepth 200000 in
/-- Witness for the amended C1 at a concrete identity-pure pipeline whose
first iteration changes the fingerprint. -/
theorem identity_pure_pipeline_converges_at_two_witness :
    ((∀ n ∈ c1wBase.nodes, (keysOf (n.enrichment.getD [])).Nodup) ∧
     (pipelineStep [] [c1wPass] c1wBase false).2 = true ∧ 2 ≤ 2) ∧
    ((enrich c1wBase [c1wPass] "out" 2 true).stop = .converged ∧
     (enrich c1wBase [c1wPass] "out" 2 true).iterations = 2 ∧
     (enrich c1wBase [c1wPass] "out" 2 true).layers.length = 2) :=
  ⟨⟨by decide, by decide, by decide⟩,
   identity_pure_pipeline_converges_at_two c1wBase [c1wPass] "out" 2 c1wF
     (by decide)
     (fun p hp n g ctx => by rcases List.mem_singleton.mp hp with rfl; rfl)
     (fun p hp => ⟨fun _ _ _ => (none : Option Json),
       fun ed g ctx => by rcases List.mem_singleton.mp hp with rfl; rfl⟩)
     (by decide) (by decide)⟩

/-! ### Claim C3: end-to-end example with two mock passes -/

def c3Node (i nm ty pa : String) : Node :=
  ⟨i, nm, ty, pa, .obj [("line", .num 1), ("column", .num 0)], .obj [], none⟩

/-- Base graph of the end-to-end example: 1 file, 1 class, 3 functions,
4 `contains` edges and 1 `calls` edge. -/
def c3Base : Graph :=
  ⟨[c3Node "file1" "main.py" "file" "main.py",
    c3Node "class1" "Widget" "class" "main.py",
    c3Node "func1" "run" "function" "main.py",
    c3Node "func2" "step" "function" "main.py",
    c3Node "func3" "halt" "function" "main.py"],
   [⟨"file1", "class1", "contains", none⟩, ⟨"class1", "func1", "contains", none⟩,
    ⟨"class1", "func2", "contains", none⟩, ⟨"class1", "func3", "contains", none⟩,
    ⟨"func1", "func2", "calls", none⟩]⟩

def c3Mock1 : EnricherPass :=
  ⟨1, "mock1", fun _ _ _ => some (.obj [("mock", .bool true)]),
   fun _ _ _ => some (.obj [("mock", .bool true)])⟩

def c3Mock2 : EnricherPass :=
  ⟨2, "mock2", fun _ _ _ => some (.obj [("mock", .bool true)]),
   fun _ _ _ => some (.obj [("mock", .bool true)])⟩

set_option maxRecDepth 1000000 in
/-- C3: running the two mock passes over the 5-node/5-edge base graph with
`max_iterations = 2, convergence_check = false` yields: every node and edge
carries both `layer1` and `layer2`; the history has length 2; exactly one
layer artifact exists per pass (the two layer files, besides the index and the
final graph); and the entity index holds exactly the class and the three
functions (the file node is excluded) — 4 entries. -/
theorem end_to_end_mock_example :
    ((enrich c3Base [c3Mock1, c3Mock2] "out" 2 false).graph.nodes.all
      (fun n => (lookupEnrich n.enrichment "layer1").isSome &&
                (lookupEnrich n.enrichment "layer2").isSome) = true) ∧
    ((enrich c3Base [c3Mock1, c3Mock2] "out" 2 false).graph.edges.all
      (fun e => (lookupEnrich e.enrichment "layer1").isSome &&
                (lookupEnrich e.enrichment "layer2").isSome) = true) ∧
    (enrich c3Base [c3Mock1, c3Mock2] "out" 2 false).layers.length = 2 ∧
    (enrich c3Base [c3Mock1, c3Mock2] "out" 2 false).writes =
      ["out/enrichment/l1-mock1.json", "out/enrichment/l2-mock2.json",
       "out/enrichment/indexes/entity-index.json", "out/code-graph-enriched.json"] ∧
    (entityIndex (enrich c3Base [c3Mock1, c3Mock2] "out" 2 false).graph).map Prod.fst =
      ["class1", "func1", "func2", "func3"] ∧
    (entityIndex (enrich c3Base [c3Mock1, c3Mock2] "out" 2 false).graph).length = 4 := by
  refine ⟨by decide, by decide, by decide, by decide, by decide, by decide⟩

/-! ### Claim C5: `process` never mutates the graph it receives -/

/-- Heap model of one `EnricherPass.process(graph, context)` call.  Python
objects live in a heap of graph documents addressed by references
(list indices).  `process` reads the graph at reference `r`, allocates
`enriched_graph = json.loads(json.dumps(graph))` as a fresh object at a fresh
reference, runs the node and edge loops — whose writes all go through the
`enriched_graph` reference (`processBody`) — and returns the fresh
reference. -/
def processHeap (p : EnricherPass) (ctx : List Graph) (heap : List Graph) (r : Nat) :
    List Graph × Nat :=
  let g := (heap[r]?).getD ⟨[], []⟩
  let heap2 := heap ++ [deepCopy g]
  let rNew := heap.length
  (heap2.set rNew (processBody p ctx (deepCopy g)), rNew)

/-- C5: `process` leaves the graph object it receives completely unchanged —
its writes target the freshly allocated deep copy, a different object, and the
returned object is just `process`'s result on (a copy of) the input. -/
theorem process_leaves_input_unchanged (p : EnricherPass) (ctx : List Graph)
    (heap : List Graph) (r : Nat) (hr : r < heap.length) :
    (processHeap p ctx heap r).1[r]? = heap[r]? ∧
    (processHeap p ctx heap r).2 ≠ r ∧
    (processHeap p ctx heap r).1[(processHeap p ctx heap r).2]? =
      some (p.process ((heap[r]?).getD ⟨[], []⟩) ctx) := by
  have hset : ∀ (x y : Graph), (heap ++ [x]).set heap.length y = heap ++ [y] := by
    intro x y
    rw [List.set_append, if_neg (by omega)]
    simp
  refine ⟨?_, by show heap.length ≠ r; omega, ?_⟩
  · show ((heap ++ [deepCopy ((heap[r]?).getD ⟨[], []⟩)]).set heap.length
        (processBody p ctx (deepCopy ((heap[r]?).getD ⟨[], []⟩))))[r]? = heap[r]?
    rw [hset]
    exact List.getElem?_append_left hr
  · show ((heap ++ [deepCopy ((heap[r]?).getD ⟨[], []⟩)]).set heap.length
        (processBody p ctx (deepCopy ((heap[r]?).getD ⟨[], []⟩))))[heap.length]? = _
    rw [hset, List.getElem?_concat_length]
    rfl

def c5Graph : Graph :=
  ⟨[⟨"n1", "alpha", "class", "a.py", .null, .obj [], some [("layer9", .num 7)]⟩],
   [⟨"n1", "n1", "calls", none⟩]⟩

def c5Pass : EnricherPass :=
  ⟨1, "writer", fun _ _ _ => some (.obj [("x", .num 1)]),
   fun _ _ _ => some (.obj [("y", .num 2)])⟩

/-- Witness for C5 on a one-element heap. -/
theorem process_leaves_input_unchanged_witness :
    0 < [c5Graph].length ∧
    (processHeap c5Pass [] [c5Graph] 0).1[0]? = [c5Graph][0]? ∧
    (processHeap c5Pass [] [c5Graph] 0).2 ≠ 0 :=
  ⟨by decide,
   (process_leaves_input_unchanged c5Pass [] [c5Graph] 0 (by decide)).1,
   (process_leaves_input_unchanged c5Pass [] [c5Graph] 0 (by decide)).2.1⟩

/-! ### Claim C6: no pass writes another pass's layer key, ids are immutable -/

theorem layer_string_inj {a b : Nat} (h : "layer" ++ natStr a = "layer" ++ natStr b) :
    a = b := by
  have hd := congrArg String.data h
  rw [String.data_append, String.data_append] at hd
  have := List.append_cancel_left hd
  exact natStr_inj (congrArg String.mk this)

theorem attachNodeResult_lookup_ne (p : EnricherPass) (nd : Node) (r : Option Json)
    {k : String} (hk : k ≠ layerKey p) :
    lookupEnrich (attachNodeResult p nd r).enrichment k = lookupEnrich nd.enrichment k := by
  cases r with
  | none => rfl
  | some v =>
    unfold attachNodeResult
    by_cases h : jtruthy v = true
    · simp only [h, if_true]
      show lookupKV (dictInsert (nd.enrichment.getD []) (layerKey p) v) k = _
      rw [lookupKV_dictInsert_ne _ _ hk]
      rfl
    · simp [h]

theorem attachEdgeResult_source (p : EnricherPass) (ed : Edge) (r : Option Json) :
    (attachEdgeResult p ed r).source = ed.source := by
  cases r with
  | none => rfl
  | some v => unfold attachEdgeResult; by_cases h : jtruthy v = true <;> simp [h]

theorem attachEdgeResult_target (p : EnricherPass) (ed : Edge) (r : Option Json) :
    (attachEdgeResult p ed r).target = ed.target := by
  cases r with
  | none => rfl
  | some v => unfold attachEdgeResult; by_cases h : jtruthy v = true <;> simp [h]

theorem attachEdgeResult_type (p : EnricherPass) (ed : Edge) (r : Option Json) :
    (attachEdgeResult p ed r).type = ed.type := by
  cases r with
  | none => rfl
  | some v => unfold attachEdgeResult; by_cases h : jtruthy v = true <;> simp [h]

theorem attachEdgeResult_lookup_ne (p : EnricherPass) (ed : Edge) (r : Option Json)
    {k : String} (hk : k ≠ layerKey p) :
    lookupEnrich (attachEdgeResult p ed r).enrichment k = lookupEnrich ed.enrichment k := by
  cases r with
  | none => rfl
  | some v =>
    unfold attachEdgeResult
    by_cases h : jtruthy v = true
    · simp only [h, if_true]
      show lookupKV (dictInsert (ed.enrichment.getD []) (layerKey p) v) k = _
      rw [lookupKV_dictInsert_ne _ _ hk]
      rfl
    · simp [h]

/-- Node observation: identity and the enrichment under one fixed layer key. -/
def nodeObs (k : String) (n : Node) : String × Option Json :=
  (n.id, lookupEnrich n.enrichment k)

/-- Edge observation: identity fields and the enrichment under one key. -/
def edgeObs (k : String) (e : Edge) : String × String × String × Option Json :=
  (e.source, e.target, e.type, lookupEnrich e.enrichment k)

theorem stepNode_obs (p : EnricherPass) (ctx : List Graph) {k : String}
    (hk : k ≠ layerKey p) (g : Graph) (i j : Nat) :
    ((stepNode p ctx g i).nodes[j]?).map (nodeObs k) = (g.nodes[j]?).map (nodeObs k) := by
  unfold stepNode
  cases hg : g.nodes[i]? with
  | none => rfl
  | some nd =>
    dsimp only
    by_cases hj : j = i
    · subst hj
      have hlen : j < g.nodes.length := by
        by_contra hc
        rw [List.getElem?_eq_none (by omega)] at hg
        exact Option.noConfusion hg
      have hobs : nodeObs k (attachNodeResult p nd (p.enrich_node nd g ctx)) = nodeObs k nd := by
        unfold nodeObs
        rw [attachNodeResult_id, attachNodeResult_lookup_ne p nd _ hk]
      simp only [List.getElem?_set, if_pos rfl, hlen, if_true, hg]
      simp [hobs]
    · have hne : i ≠ j := fun hh => hj hh.symm
      simp [List.getElem?_set, hne]

theorem processNodesAux_obs (p : EnricherPass) (ctx : List Graph) {k : String}
    (hk : k ≠ layerKey p) :
    ∀ (fuel i : Nat) (g : Graph) (j : Nat),
      ((processNodesAux p ctx fuel i g).nodes[j]?).map (nodeObs k) =
        (g.nodes[j]?).map (nodeObs k)
  | 0, _, _, _ => rfl
  | fuel+1, i, g, j => by
    rw [processNodesAux, processNodesAux_obs p ctx hk fuel (i+1) _ j, stepNode_obs p ctx hk]

theorem stepEdge_obs (p : EnricherPass) (ctx : List Graph) {k : String}
    (hk : k ≠ layerKey p) (g : Graph) (i j : Nat) :
    ((stepEdge p ctx g i).edges[j]?).map (edgeObs k) = (g.edges[j]?).map (edgeObs k) := by
  unfold stepEdge
  cases hg : g.edges[i]? with
  | none => rfl
  | some ed =>
    dsimp only
    by_cases hj : j = i
    · subst hj
      have hlen : j < g.edges.length := by
        by_contra hc
        rw [List.getElem?_eq_none (by omega)] at hg
        exact Option.noConfusion hg
      have hobs : edgeObs k (attachEdgeResult p ed (p.enrich_edge ed g ctx)) = edgeObs k ed := by
        unfold edgeObs
        rw [attachEdgeResult_source, attachEdgeResult_target, attachEdgeResult_type,
          attachEdgeResult_lookup_ne p ed _ hk]
      simp only [List.getElem?_set, if_pos rfl, hlen, if_true, hg]
      simp [hobs]
    · have hne : i ≠ j := fun hh => hj hh.symm
      simp [List.getElem?_set, hne]

theorem processEdgesAux_obs (p : EnricherPass) (ctx : List Graph) {k : String}
    (hk : k ≠ layerKey p) :
    ∀ (fuel i : Nat) (g : Graph) (j : Nat),
      ((processEdgesAux p ctx fuel i g).edges[j]?).map (edgeObs k) =
        (g.edges[j]?).map (edgeObs k)
  | 0, _, _, _ => rfl
  | fuel+1, i, g, j => by
    rw [processEdgesAux, processEdgesAux_obs p ctx hk fuel (i+1) _ j, stepEdge_obs p ctx hk]

/-- C6: a `process` call of a pass whose `layer_num` differs from `K` neither
writes nor removes any entity's `layerK` enrichment, and never alters a
node's id or an edge's source/target/type.  (In the embedding, the enrich
functions are pure, so the claim's proviso that they do not themselves mutate
the entities they receive holds by construction.)  Applied to every pass of a
pipeline with pairwise-distinct layer numbers, this is the non-overwrite
invariant: once `layerK` is written by the pass with `layer_num = K`, every
other pass preserves it through the whole run. -/
theorem other_layer_keys_preserved (p : EnricherPass) (K : Nat) (hK : K ≠ p.layer_num)
    (g : Graph) (ctx : List Graph) :
    (∀ j : Nat, ((p.process g ctx).nodes[j]?).map (nodeObs ("layer" ++ natStr K)) =
      (g.nodes[j]?).map (nodeObs ("layer" ++ natStr K))) ∧
    (∀ j : Nat, ((p.process g ctx).edges[j]?).map (edgeObs ("layer" ++ natStr K)) =
      (g.edges[j]?).map (edgeObs ("layer" ++ natStr K))) := by
  have hk : ("layer" ++ natStr K) ≠ layerKey p := fun hc => hK (layer_string_inj hc)
  constructor
  · intro j
    show ((processEdgesAux p ctx
        (processNodesAux p ctx (deepCopy g).nodes.length 0 (deepCopy g)).edges.length 0
        (processNodesAux p ctx (deepCopy g).nodes.length 0 (deepCopy g))).nodes[j]?).map
        (nodeObs ("layer" ++ natStr K)) = (g.nodes[j]?).map (nodeObs ("layer" ++ natStr K))
    rw [processEdgesAux_nodes, processNodesAux_obs p ctx hk, deepCopy_eq]
  · intro j
    show ((processEdgesAux p ctx
        (processNodesAux p ctx (deepCopy g).nodes.length 0 (deepCopy g)).edges.length 0
        (processNodesAux p ctx (deepCopy g).nodes.length 0 (deepCopy g))).edges[j]?).map
        (edgeObs ("layer" ++ natStr K)) = (g.edges[j]?).map (edgeObs ("layer" ++ natStr K))
    rw [processEdgesAux_obs p ctx hk, processNodesAux_edges, deepCopy_eq]

def c6Graph : Graph :=
  ⟨[⟨"n1", "alpha", "class", "a.py", .null, .obj [],
     some [("layer1", .obj [("classification", .str "domain")])]⟩],
   [⟨"n1", "n1", "calls", some [("layer1", .obj [("w", .num 1)])]⟩]⟩

def c6Pass : EnricherPass :=
  ⟨2, "semantic", fun _ _ _ => some (.obj [("patterns", .arr [.str "Entity"])]),
   fun _ _ _ => some (.obj [("semantic_type", .str "dependency")])⟩

/-- Witness for C6: a layer-2 pass run over a graph already carrying `layer1`
leaves the `layer1` values and all identity fields untouched. -/
theorem other_layer_keys_preserved_witness :
    (1 ≠ c6Pass.layer_num) ∧
    ((c6Pass.process c6Graph []).nodes[0]?).map (nodeObs ("layer" ++ natStr 1)) =
      (c6Graph.nodes[0]?).map (nodeObs ("layer" ++ natStr 1)) ∧
    ((c6Pass.process c6Graph []).edges[0]?).map (edgeObs ("layer" ++ natStr 1)) =
      (c6Graph.edges[0]?).map (edgeObs ("layer" ++ natStr 1)) :=
  ⟨by decide,
   (other_layer_keys_preserved c6Pass 1 (by decide) c6Graph []).1 0,
   (other_layer_keys_preserved c6Pass 1 (by decide) c6Graph []).2 0⟩

/-! ### Claim C8: a malformed base graph aborts the run before any pass -/

/-- The Python exceptions the boundary code can raise. -/
inductive PyErr where
  | keyError (k : String) : PyErr
  | typeError : PyErr
deriving DecidableEq

/-- Python `obj[k]` with a string key: `KeyError` when a dict lacks the key,
`TypeError` when the value is not subscriptable by a string. -/
def getItem : Json → String → Except PyErr Json
  | .obj kvs, k =>
    match lookupKV kvs k with
    | some v => .ok v
    | none => .error (.keyError k)
  | _, _ => .error .typeError

/-- Python `len(x)`. -/
def pyLen : Json → Except PyErr Nat
  | .arr xs => .ok xs.length
  | .obj kvs => .ok kvs.length
  | .str s => .ok s.length
  | _ => .error .typeError

/-- Outcome of a run started from a raw loaded JSON document: the files
written, the passes executed, and the result or the uncaught exception. -/
structure CliRun where
  writes : List String
  executed : List String
  result : Except PyErr RunResult

/-- Model of `IterativeEnricher.enrich` as called on the raw document returned by
`cli.load_graph` (which only handles file-not-found and JSON-syntax errors).
Before the iteration loop runs, the code evaluates
`len(self.base_graph['nodes'])` and `len(self.base_graph['edges'])`
(iterative_enricher.py line 142; cli.py line 139 performs the same subscripts
even earlier), so an absent top-level container raises there — before any
pass executes and before any file is written.  A document whose containers
are present but whose node/edge entries do not match the §3 schema is
collapsed to a single abort here; the claims exercise only the
absent-container branches and the well-formed case. -/
def enrichChecked (baseJson : Json) (passes : List EnricherPass) (outDir : String)
    (maxIter : Nat) (conv : Bool) : CliRun :=
  match (getItem baseJson "nodes").bind pyLen with
  | .error e => ⟨[], [], .error e⟩
  | .ok _ =>
    match (getItem baseJson "edges").bind pyLen with
    | .error e => ⟨[], [], .error e⟩
    | .ok _ =>
      match graphFromJson baseJson with
      | some g =>
        let r := enrich g passes outDir maxIter conv
        ⟨r.writes, r.executed, .ok r⟩
      | none => ⟨[], [], .error .typeError⟩

/-- Does the top level carry both the `nodes` and `edges` containers? -/
def hasGraphKeys : Json → Bool
  | .obj kvs => (lookupKV kvs "nodes").isSome && (lookupKV kvs "edges").isSome
  | _ => false

/-- C8: if the top-level `nodes` or `edges` container is absent (or the
document is not an object at all), the run fails with an input error — a
`KeyError` naming the missing container, or a `TypeError` — and aborts before
any pass executes and before any file is written. -/
theorem malformed_graph_aborts_before_passes (baseJson : Json)
    (passes : List EnricherPass) (outDir : String) (maxIter : Nat) (conv : Bool)
    (h : hasGraphKeys baseJson = false) :
    (enrichChecked baseJson passes outDir maxIter conv).writes = [] ∧
    (enrichChecked baseJson passes outDir maxIter conv).executed = [] ∧
    ∃ e, (enrichChecked baseJson passes outDir maxIter conv).result = .error e := by
  cases baseJson with
  | obj kvs =>
    rw [hasGraphKeys] at h
    rw [enrichChecked]
    cases hn : lookupKV kvs "nodes" with
    | none =>
      rw [show getItem (.obj kvs) "nodes" = .error (.keyError "nodes") by
        rw [getItem, hn]]
      exact ⟨rfl, rfl, ⟨.keyError "nodes", rfl⟩⟩
    | some v =>
      rw [show getItem (.obj kvs) "nodes" = .ok v by rw [getItem, hn]]
      have he : lookupKV kvs "edges" = none := by
        cases he : lookupKV kvs "edges" with
        | none => rfl
        | some w => rw [hn, he] at h; simp at h
      cases hv : pyLen v with
      | error e =>
        rw [show (Except.ok v : Except PyErr Json).bind pyLen = .error e by
          rw [Except.bind, hv]]
        exact ⟨rfl, rfl, ⟨e, rfl⟩⟩
      | ok nlen =>
        rw [show (Except.ok v : Except PyErr Json).bind pyLen = .ok nlen by
          rw [Except.bind, hv]]
        rw [show getItem (.obj kvs) "edges" = .error (.keyError "edges") by
          rw [getItem, he]]
        exact ⟨rfl, rfl, ⟨.keyError "edges", rfl⟩⟩
  | null => exact ⟨rfl, rfl, ⟨.typeError, rfl⟩⟩
  | bool b => exact ⟨rfl, rfl, ⟨.typeError, rfl⟩⟩
  | num n => exact ⟨rfl, rfl, ⟨.typeError, rfl⟩⟩
  | str st => exact ⟨rfl, rfl, ⟨.typeError, rfl⟩⟩
  | arr xs => exact ⟨rfl, rfl, ⟨.typeError, rfl⟩⟩

def c8Json : Json := .obj [("nodes", .arr [])]

def c8Pass : EnricherPass :=
  ⟨1, "anypass", fun _ _ _ => some (.obj [("a", .num 1)]), fun _ _ _ => none⟩

/-- Witness for C8: a document with `nodes` but no `edges` aborts with no pass
executed and no file written. -/
theorem malformed_graph_aborts_before_passes_witness :
    hasGraphKeys c8Json = false ∧
    (enrichChecked c8Json [c8Pass] "out" 2 true).writes = [] ∧
    (enrichChecked c8Json [c8Pass] "out" 2 true).executed = [] ∧
    ∃ e, (enrichChecked c8Json [c8Pass] "out" 2 true).result = .error e :=
  ⟨by decide,
   (malformed_graph_aborts_before_passes c8Json [c8Pass] "out" 2 true (by decide)).1,
   (malformed_graph_aborts_before_passes c8Json [c8Pass] "out" 2 true (by decide)).2.1,
   (malformed_graph_aborts_before_passes c8Json [c8Pass] "out" 2 true (by decide)).2.2⟩

/-! ### Claim C9: `StructuralEnricher.enrich_node` degrades on a missing file
(layer1_structural.py) -/

/-- The file system seen by the structural pass: path to the list of lines
`f.readlines()` would return.  A path that is absent models both a
non-existent file (`file_path.exists()` is false) and an unreadable one (the
`except Exception: pass` of `_calculate_complexity` swallows the error);
either way the default metrics are kept. -/
def FileSys : Type := List (String × List String)

def fsRead : FileSys → String → Option (List String)
  | [], _ => none
  | kv :: fs, p => if kv.1 == p then some kv.2 else fsRead fs p

/-- Path join `self.root_path / node['path']`. -/
def pathJoin (root rel : String) : String := root ++ "/" ++ rel

/-- Model of `name.lower()` (the names exercised here are ASCII). -/
def strLower (s : String) : String := ⟨s.data.map Char.toLower⟩

/-- Python `sub in s` on strings. -/
def listContainsSub (pat : List Char) : List Char → Bool
  | [] => pat.isEmpty
  | c :: t => pat.isPrefixOf (c :: t) || listContainsSub pat t

def strContains (s pat : String) : Bool := listContainsSub pat.data s.data

def infra_patterns : List String :=
  ["config", "settings", "setup", "init", "main", "utils", "helper", "base", "abstract",
   "test", "mock", "fixture"]

def domain_patterns : List String :=
  ["user", "product", "order", "cart", "payment", "customer", "account", "invoice", "item",
   "service", "repository", "model", "entity"]

/-- Model of `StructuralEnricher._classify_by_name`. -/
def classify_by_name (name ty : String) : String :=
  let nameLower := strLower name
  if infra_patterns.any (fun pat => strContains nameLower pat) then "infrastructure"
  else if domain_patterns.any (fun pat => strContains nameLower pat) then "domain"
  else if ty == "file" then "infrastructure"
  else if ty == "class" then "domain"
  else "unknown"

/-- Model of `node.get('metadata', {}).get('imports', [])` (the code iterates the
value; a non-list value is outside the claims' scope and reads as empty). -/
def getImports (n : Node) : List Json :=
  match n.metadata with
  | .obj m =>
    match lookupKV m "imports" with
    | some (.arr xs) => xs
    | _ => []
  | _ => []

def stdlib_imports : List String :=
  ["os", "sys", "json", "logging", "typing", "datetime", "pathlib"]

def isStdlibImport (j : Json) : Bool :=
  match j with
  | .str s => stdlib_imports.contains s
  | _ => false

/-- Model of `StructuralEnricher._classify_by_imports` (`len(domain) > len(imports)/2`
on ints is `2*len(domain) > len(imports)`). -/
def classify_by_imports (n : Node) : Option String :=
  if n.type != "file" then none
  else
    let imports := getImports n
    if imports.isEmpty then none
    else
      let domainImports := imports.filter (fun j => !isStdlibImport j)
      if domainImports.length == 0 && imports.length > 0 then some "infrastructure"
      else if domainImports.length > 0 then
        if 2 * domainImports.length > imports.length then some "domain" else some "mixed"
      else none

/-- The complexity dict's initial value (all counters 0). -/
def zeroComplexity : List (String × Json) :=
  [("loc", .num 0), ("nesting_depth", .num 0), ("num_params", .num 0), ("num_methods", .num 0)]

/-- Model of `StructuralEnricher._calculate_complexity`: on a missing or unreadable
file the `try` block leaves the defaults; otherwise files count non-blank
non-comment lines, classes count contained methods, functions get the fixed
estimates. -/
def calculate_complexity (fs : FileSys) (root : String) (n : Node) (g : Graph) :
    List (String × Json) :=
  match fsRead fs (pathJoin root n.path) with
  | none => zeroComplexity
  | some lines =>
    if n.type == "file" then
      dictInsert zeroComplexity "loc"
        (.num ((lines.filter (fun l => l.trim != "" && !((l.trim).startsWith "#"))).length))
    else if n.type == "class" then
      let numMethods := (g.edges.filter (fun e => e.source == n.id && e.type == "contains")).length
      dictInsert (dictInsert zeroComplexity "num_methods" (.num numMethods)) "loc"
        (.num (numMethods * 5 + 10))
    else if n.type == "function" then
      dictInsert (dictInsert zeroComplexity "loc" (.num 10)) "nesting_depth" (.num 1)
    else zeroComplexity

def stdlib_imports_deps : List String :=
  ["os", "sys", "json", "logging", "typing", "datetime", "pathlib", "dataclasses"]

/-- Model of `StructuralEnricher._calculate_dependencies`. -/
def calculate_dependencies (n : Node) : List (String × Json) :=
  let base := [("import_depth", Json.num 0), ("num_imports", Json.num 0),
               ("imports_from", Json.arr [])]
  if n.type == "file" then
    let imports := getImports n
    let localImports := imports.filter (fun j =>
      !(match j with | .str s => stdlib_imports_deps.contains s | _ => false))
    dictInsert
      (dictInsert (dictInsert base "num_imports" (.num imports.length))
        "imports_from" (.arr imports))
      "import_depth" (.num (if localImports.isEmpty then 0 else 1))
  else base

/-- Model of `StructuralEnricher.enrich_node`: always returns the (truthy, non-empty)
enrichment dict `{classification, complexity, dependencies}`; a name-based
classification is used when the import-based one is `None`/empty. -/
def structural_enrich_node (fs : FileSys) (root : String) (n : Node) (g : Graph)
    (ctx : List Graph) : Option Json :=
  let nameCls := classify_by_name n.name n.type
  let cls := match classify_by_imports n with
    | some c => c
    | none => nameCls
  some (.obj [("classification", .str cls),
              ("complexity", .obj (calculate_complexity fs root n g)),
              ("dependencies", .obj (calculate_dependencies n))])

/-- C9: when the node's referenced source file is absent or unreadable,
`enrich_node` still returns an enrichment (it never raises — the function is
total), with all complexity counters at their 0 defaults; one missing file
never aborts the run. -/
theorem structural_enrich_node_degrades (fs : FileSys) (root : String) (n : Node)
    (g : Graph) (ctx : List Graph)
    (habs : fsRead fs (pathJoin root n.path) = none) :
    ∃ cls deps, structural_enrich_node fs root n g ctx =
      some (.obj [("classification", .str cls),
                  ("complexity", .obj zeroComplexity),
                  ("dependencies", .obj deps)]) := by
  refine ⟨match classify_by_imports n with
    | some c => c
    | none => classify_by_name n.name n.type, calculate_dependencies n, ?_⟩
  rw [structural_enrich_node]
  rw [calculate_complexity, habs]

def c9Fs : FileSys := [("proj/other.py", ["x = 1"])]

def c9Node : Node :=
  ⟨"fn1", "calculate_total", "function", "src/billing.py",
   .obj [("line", .num 12)], .obj [], none⟩

def c9Graph : Graph := ⟨[c9Node], []⟩

/-- Witness for C9: a node whose source file is not in the file system still
gets `{classification, complexity = zeros, dependencies}`. -/
theorem structural_enrich_node_degrades_witness :
    fsRead c9Fs (pathJoin "proj" c9Node.path) = none ∧
    ∃ cls deps, structural_enrich_node c9Fs "proj" c9Node c9Graph [] =
      some (.obj [("classification", .str cls),
                  ("complexity", .obj zeroComplexity),
                  ("dependencies", .obj deps)]) :=
  ⟨by decide,
   structural_enrich_node_degrades c9Fs "proj" c9Node c9Graph [] (by decide)⟩

end Enricher
